import Mathlib

/-!
# Optional values and their JSON encoding (`internal/optional/types.go`)

A shallow embedding of the generic wrapper `Optional[T]` with its three methods
`IsZero`, `MarshalJSON` and `UnmarshalJSON`.

The two calls the methods make into Go's `encoding/json` package, `json.Marshal(o.Value)`
and `json.Unmarshal(b, &value)`, depend on the value type `T`.  They are taken as a
parameter of the embedding (`ValueType`), together with `T`'s zero value (`var value T`).
-/

namespace optional

/-- A Go byte slice `[]byte`. -/
abbrev Bytes := List UInt8

/-- The bytes of the literal `null`, as in `[]byte("null")`. -/
def nullBytes : Bytes := [0x6e, 0x75, 0x6c, 0x6c]

/-- What the methods of `Optional[T]` need to know about the value type `T`:
its zero value (`var value T`), `json.Marshal` on a `T` (a `([]byte, error)` result) and
`json.Unmarshal(b, &value)` on a `*T`, which receives the target's current content and
returns the target's content after the call together with the `error` result (`none`
is `nil`).  The target may have been written to also when an error is returned. -/
structure ValueType (T E : Type) where
  zero : T
  Marshal : T → Except E Bytes
  Unmarshal : Bytes → T → T × Option E

/-- The struct `Optional[T]` with its fields `IsSet` and `Value`. -/
structure Optional (T : Type) where
  IsSet : Bool
  Value : T
deriving DecidableEq, Repr

/-- The zero value of `Optional[T]` (`var opt Optional[T]`). -/
def Optional.zeroValue {T E : Type} (vt : ValueType T E) : Optional T :=
  { IsSet := false, Value := vt.zero }

/-- `func (o Optional[T]) IsZero() bool`. -/
def Optional.IsZero {T : Type} (o : Optional T) : Bool :=
  !o.IsSet

/-- `func (o Optional[T]) MarshalJSON() ([]byte, error)`. -/
def Optional.MarshalJSON {T E : Type} (vt : ValueType T E) (o : Optional T) : Except E Bytes :=
  if !o.IsSet then
    Except.ok nullBytes
  else
    vt.Marshal o.Value

/-- `func (o *Optional[T]) UnmarshalJSON(b []byte) error`: the receiver before the call and
the input give the receiver after the call and the returned error (`none` is `nil`). -/
def Optional.UnmarshalJSON {T E : Type} (vt : ValueType T E) (o : Optional T) (b : Bytes) :
    Optional T × Option E :=
  let value := vt.zero
  if b.length == 0 || b == nullBytes then
    ({ IsSet := false, Value := value }, none)
  else
    match vt.Unmarshal b value with
    | (_, some err) => (o, some err)
    | (value, none) => ({ IsSet := true, Value := value }, none)

end optional

/-!
## The value types `bool`, `int` and `string` under `encoding/json`

`json.Marshal` and `json.Unmarshal` are not part of the repository.  For the three scalar
value types that the named instantiations `Bool`, `Int` and `String` wrap, their behaviour
is modelled here after the Go standard library (`encoding/json`, `strconv`, `unicode/utf8`,
`unicode/utf16`, Go 1.22 and later).  Runes are natural numbers; the bit operations of the
library on bytes and runes are written with `/`, `%`, `*` and `+`, which agree with them on
the operands that occur.  The content of an error is not modelled: a failing call returns
the one value of `json.Error`.
-/

namespace json

open optional (Bytes nullBytes)

/-- An `error` returned by `encoding/json` (`*SyntaxError`, `*UnmarshalTypeError`). -/
inductive Error where
  | mk
deriving DecidableEq, Repr

/-- The function `isSpace` of `scanner.go`: space, tab, carriage return, line feed. -/
def isSpace (c : UInt8) : Bool :=
  c == 0x20 || c == 0x09 || c == 0x0d || c == 0x0a

/-- The one JSON value of a document: the scanner skips white space before the top-level
value and accepts nothing but white space after it. -/
def trimSpace (data : Bytes) : Bytes :=
  ((data.dropWhile isSpace).reverse.dropWhile isSpace).reverse

/-- The literal `true`. -/
def trueBytes : Bytes := [0x74, 0x72, 0x75, 0x65]

/-- The literal `false`. -/
def falseBytes : Bytes := [0x66, 0x61, 0x6c, 0x73, 0x65]

/-! ### bool -/

/-- `json.Marshal` on a `bool` (`boolEncoder`). -/
def MarshalBool (v : Bool) : Except Error Bytes :=
  Except.ok (if v then trueBytes else falseBytes)

/-- `json.Unmarshal` into a `*bool`: `null` leaves the target as it is, `true` and `false`
are stored, every other document is an error (`literalStore`). -/
def UnmarshalBool (data : Bytes) (target : Bool) : Bool × Option Error :=
  let item := trimSpace data
  if item = nullBytes then (target, none)
  else if item = trueBytes then (true, none)
  else if item = falseBytes then (false, none)
  else (target, some Error.mk)

/-! ### int -/

/-- The size of Go's `int` in bits (`strconv.IntSize` on a 64-bit platform). -/
def IntSize : Nat := 64

/-- Whether an integer is a value of Go's `int`. -/
def isGoInt (i : Int) : Prop :=
  -(2 : Int) ^ (IntSize - 1) ≤ i ∧ i < (2 : Int) ^ (IntSize - 1)

instance (i : Int) : Decidable (isGoInt i) := by
  unfold isGoInt; infer_instance

/-- The decimal digits of `u`, written from the last one backwards in front of `acc`
(`strconv.formatBits` in base 10). -/
def formatBits : Nat → Nat → Bytes → Bytes
  | 0, _, acc => acc
  | fuel + 1, u, acc =>
    if u < 10 then UInt8.ofNat (0x30 + u) :: acc
    else formatBits fuel (u / 10) (UInt8.ofNat (0x30 + u % 10) :: acc)

/-- `strconv.AppendInt(nil, i, 10)`: a minus sign for a negative `i`, then the decimal
digits of its absolute value. -/
def AppendInt (i : Int) : Bytes :=
  if i < 0 then 0x2d :: formatBits (i.natAbs + 1) i.natAbs []
  else formatBits (i.natAbs + 1) i.natAbs []

/-- `json.Marshal` on an `int` (`intEncoder`). -/
def MarshalInt (v : Int) : Except Error Bytes :=
  Except.ok (AppendInt v)

/-- A decimal digit `0`..`9`. -/
def isDigit (c : UInt8) : Bool :=
  0x30 ≤ c.toNat && c.toNat ≤ 0x39

/-- The integer part of a JSON number as the scanner accepts it: `0`, or a digit `1`..`9`
followed by digits. -/
def isIntLiteral : Bytes → Bool
  | [] => false
  | [c] => isDigit c
  | c :: cs => isDigit c && c.toNat != 0x30 && cs.all isDigit

/-- The value of a string of decimal digits (the loop of `strconv.ParseUint`, without its
cut-off: the range is checked by the caller). -/
def parseDigits (ds : Bytes) : Nat :=
  ds.foldl (fun n c => n * 10 + (c.toNat - 0x30)) 0

/-- What the digits written by `formatBits` for `u` are: decimal digits, at least one, no
leading zero unless `u = 0`, and their value is `u`. -/
def IsDecimalOf (u : Nat) (ds : Bytes) : Prop :=
  (∀ c ∈ ds, isDigit c = true) ∧ ds ≠ []
    ∧ (∀ c, ds.head? = some c → (u ≠ 0 → c.toNat ≠ 0x30) ∧ (u = 0 → ds = [c]))
    ∧ parseDigits ds = u

/-- `json.Unmarshal` into an `*int`: `null` leaves the target as it is; a JSON number is
stored when `strconv.ParseInt(s, 10, 64)` accepts it and it does not overflow `int`, which
excludes numbers with a fraction or an exponent; every other document is an error. -/
def UnmarshalInt (data : Bytes) (target : Int) : Int × Option Error :=
  let item := trimSpace data
  if item = nullBytes then (target, none)
  else
    match item with
    | [] => (target, some Error.mk)
    | c :: ds =>
      if c = 0x2d then
        if isIntLiteral ds ∧ isGoInt (-(parseDigits ds : Int)) then (-(parseDigits ds : Int), none)
        else (target, some Error.mk)
      else
        if isIntLiteral (c :: ds) ∧ isGoInt (parseDigits (c :: ds) : Int) then
          ((parseDigits (c :: ds) : Int), none)
        else (target, some Error.mk)

end json

namespace optional

/-- The value type `bool`, wrapped by `type Bool = Optional[bool]`. -/
def boolType : ValueType Bool json.Error :=
  { zero := false, Marshal := json.MarshalBool, Unmarshal := json.UnmarshalBool }

/-- The value type `int`, wrapped by `type Int = Optional[int]`. -/
def intType : ValueType Int json.Error :=
  { zero := 0, Marshal := json.MarshalInt, Unmarshal := json.UnmarshalInt }

end optional

namespace json

open optional (Bytes nullBytes)

/-! ### string -/

/-- The rune `utf8.RuneError`, U+FFFD (also `unicode.ReplacementChar`). -/
def RuneError : Nat := 0xFFFD

/-- The table `first` of `unicode/utf8` with `acceptRanges`, for a lead byte of a sequence
of more than one byte: the length of the sequence and the lowest and highest second byte
that is accepted.  `none` for the other bytes (ASCII and invalid lead bytes). -/
def first (p0 : Nat) : Option (Nat × Nat × Nat) :=
  if 0xC2 ≤ p0 ∧ p0 ≤ 0xDF then some (2, 0x80, 0xBF)
  else if p0 = 0xE0 then some (3, 0xA0, 0xBF)
  else if p0 = 0xED then some (3, 0x80, 0x9F)
  else if 0xE1 ≤ p0 ∧ p0 ≤ 0xEF then some (3, 0x80, 0xBF)
  else if p0 = 0xF0 then some (4, 0x90, 0xBF)
  else if 0xF1 ≤ p0 ∧ p0 ≤ 0xF3 then some (4, 0x80, 0xBF)
  else if p0 = 0xF4 then some (4, 0x80, 0x8F)
  else none

/-- A continuation byte, `locb <= b && b <= hicb`. -/
def isCont (b : Nat) : Bool :=
  0x80 ≤ b && b ≤ 0xBF

/-- `utf8.DecodeRune(p)`: the first rune of `p` and its width in bytes; `(RuneError, 0)` for
the empty input and `(RuneError, 1)` for an encoding that is not valid. -/
def DecodeRune (p : Bytes) : Nat × Nat :=
  match p with
  | [] => (RuneError, 0)
  | p0 :: rest =>
    if p0.toNat < 0x80 then (p0.toNat, 1)
    else
      match first p0.toNat with
      | none => (RuneError, 1)
      | some (sz, lo, hi) =>
        if p.length < sz then (RuneError, 1)
        else
          match rest with
          | [] => (RuneError, 1)
          | b1 :: rest1 =>
            if b1.toNat < lo ∨ hi < b1.toNat then (RuneError, 1)
            else if sz ≤ 2 then (p0.toNat % 0x20 * 0x40 + b1.toNat % 0x40, 2)
            else
              match rest1 with
              | [] => (RuneError, 1)
              | b2 :: rest2 =>
                if !isCont b2.toNat then (RuneError, 1)
                else if sz ≤ 3 then
                  (p0.toNat % 0x10 * 0x1000 + b1.toNat % 0x40 * 0x40 + b2.toNat % 0x40, 3)
                else
                  match rest2 with
                  | [] => (RuneError, 1)
                  | b3 :: _ =>
                    if !isCont b3.toNat then (RuneError, 1)
                    else
                      (p0.toNat % 0x08 * 0x40000 + b1.toNat % 0x40 * 0x1000
                        + b2.toNat % 0x40 * 0x40 + b3.toNat % 0x40, 4)

/-- `utf8.EncodeRune` (`utf8.AppendRune`): the UTF-8 encoding of a rune; a surrogate or a
rune above `utf8.MaxRune` is encoded as `RuneError`. -/
def EncodeRune (r : Nat) : Bytes :=
  if r ≤ 0x7F then [UInt8.ofNat r]
  else if r ≤ 0x7FF then [UInt8.ofNat (0xC0 + r / 0x40), UInt8.ofNat (0x80 + r % 0x40)]
  else if 0x10FFFF < r ∨ (0xD800 ≤ r ∧ r ≤ 0xDFFF) then [0xEF, 0xBF, 0xBD]
  else if r ≤ 0xFFFF then
    [UInt8.ofNat (0xE0 + r / 0x1000), UInt8.ofNat (0x80 + r / 0x40 % 0x40),
      UInt8.ofNat (0x80 + r % 0x40)]
  else
    [UInt8.ofNat (0xF0 + r / 0x40000), UInt8.ofNat (0x80 + r / 0x1000 % 0x40),
      UInt8.ofNat (0x80 + r / 0x40 % 0x40), UInt8.ofNat (0x80 + r % 0x40)]

/-- `utf8.Valid(p)`: every rune of `p` is validly encoded. -/
def Valid : Nat → Bytes → Bool
  | 0, p => p.isEmpty
  | _ + 1, [] => true
  | fuel + 1, p0 :: rest =>
    if p0.toNat < 0x80 then Valid fuel rest
    else
      let d := DecodeRune (p0 :: rest)
      if d.2 = 1 then false else Valid fuel ((p0 :: rest).drop d.2)

/-- `utf8.ValidString(s)`. -/
def ValidString (s : Bytes) : Bool :=
  Valid s.length s

/-- The digit `hex[n]` of `const hex = "0123456789abcdef"`. -/
def hex (n : Nat) : UInt8 :=
  if n < 10 then UInt8.ofNat (0x30 + n) else UInt8.ofNat (0x61 + (n - 10))

/-- The table `htmlSafeSet` of `encoding/json` on ASCII bytes: every byte from the space on,
but for the double quote, `&`, `<`, `>` and the backslash. -/
def htmlSafeSet (b : Nat) : Bool :=
  0x20 ≤ b && b != 0x22 && b != 0x26 && b != 0x3C && b != 0x3E && b != 0x5C

/-- What `appendString` writes for an ASCII byte that is not in `htmlSafeSet`. -/
def escapeByte (b : UInt8) : Bytes :=
  if b.toNat = 0x5C ∨ b.toNat = 0x22 then [0x5C, b]
  else if b.toNat = 0x08 then [0x5C, 0x62]
  else if b.toNat = 0x0C then [0x5C, 0x66]
  else if b.toNat = 0x0A then [0x5C, 0x6E]
  else if b.toNat = 0x0D then [0x5C, 0x72]
  else if b.toNat = 0x09 then [0x5C, 0x74]
  else [0x5C, 0x75, 0x30, 0x30, hex (b.toNat / 0x10), hex (b.toNat % 0x10)]

/-- One iteration of the loop of `appendString(dst, src, true)` at the rest `b :: rest` of
the string, `src[i:]`: the bytes written for the next rune and the number of bytes of the
string that it takes (safe bytes are copied as they are, `src[start:i]`). -/
def appendStringStep (b : UInt8) (rest : Bytes) : Bytes × Nat :=
  if b.toNat < 0x80 then
    if htmlSafeSet b.toNat then ([b], 1)
    else (escapeByte b, 1)
  else
    let d := DecodeRune ((b :: rest).take 4)
    if d.1 = RuneError ∧ d.2 = 1 then ([0x5C, 0x75, 0x66, 0x66, 0x66, 0x64], 1)
    else if d.1 = 0x2028 ∨ d.1 = 0x2029 then
      ([0x5C, 0x75, 0x32, 0x30, 0x32, hex (d.1 % 0x10)], d.2)
    else ((b :: rest).take d.2, d.2)

/-- The loop of `appendString(dst, src, true)` over the rest `src[i:]` of the string: the
bytes written between the two quotes. -/
def appendStringLoop : Nat → Bytes → Bytes
  | 0, _ => []
  | _ + 1, [] => []
  | fuel + 1, b :: rest =>
    (appendStringStep b rest).1
      ++ appendStringLoop fuel ((b :: rest).drop (appendStringStep b rest).2)

/-- `appendString(nil, src, true)`: the JSON string literal for a Go string. -/
def appendString (src : Bytes) : Bytes :=
  0x22 :: (appendStringLoop src.length src ++ [0x22])

/-- `json.Marshal` on a `string` (`stringEncoder`, with HTML escaping). -/
def MarshalString (v : Bytes) : Except Error Bytes :=
  Except.ok (appendString v)

/-- A hexadecimal digit, as the scanner and `getu4` accept it. -/
def isHex (c : UInt8) : Bool :=
  (0x30 ≤ c.toNat && c.toNat ≤ 0x39) || (0x61 ≤ c.toNat && c.toNat ≤ 0x66)
    || (0x41 ≤ c.toNat && c.toNat ≤ 0x46)

/-- The value of a hexadecimal digit. -/
def hexVal (c : UInt8) : Nat :=
  if 0x30 ≤ c.toNat ∧ c.toNat ≤ 0x39 then c.toNat - 0x30
  else if 0x61 ≤ c.toNat ∧ c.toNat ≤ 0x66 then c.toNat - 0x61 + 10
  else c.toNat - 0x41 + 10

/-- The states of the scanner (`scanner.go`) from the opening quote of a string literal
on: `stateInString`, `stateInStringEsc`, `stateInStringEscU`, `stateInStringEscU1`,
`stateInStringEscU12`, `stateInStringEscU123`, and the state after the closing quote of the
top-level value. -/
inductive StringState where
  | inString
  | inStringEsc
  | inStringEscU
  | inStringEscU1
  | inStringEscU12
  | inStringEscU123
  | endTop
deriving DecidableEq, Repr

/-- One step of the scanner on the byte `c`; `none` is `scanError`.  After the closing quote
of the top-level value only white space may follow, and the item has none at its end. -/
def stateStep (s : StringState) (c : UInt8) : Option StringState :=
  match s with
  | StringState.inString =>
    if c.toNat = 0x22 then some StringState.endTop
    else if c.toNat = 0x5C then some StringState.inStringEsc
    else if c.toNat < 0x20 then none
    else some StringState.inString
  | StringState.inStringEsc =>
    if c.toNat = 0x62 ∨ c.toNat = 0x66 ∨ c.toNat = 0x6E ∨ c.toNat = 0x72 ∨ c.toNat = 0x74
        ∨ c.toNat = 0x5C ∨ c.toNat = 0x2F ∨ c.toNat = 0x22 then some StringState.inString
    else if c.toNat = 0x75 then some StringState.inStringEscU
    else none
  | StringState.inStringEscU => if isHex c then some StringState.inStringEscU1 else none
  | StringState.inStringEscU1 => if isHex c then some StringState.inStringEscU12 else none
  | StringState.inStringEscU12 => if isHex c then some StringState.inStringEscU123 else none
  | StringState.inStringEscU123 => if isHex c then some StringState.inString else none
  | StringState.endTop => none

/-- The scanner run from state `s` over the rest of the item: whether it accepts every
byte and ends right after the closing quote of the string literal. -/
def scanString : StringState → Bytes → Bool
  | s, [] => decide (s = StringState.endTop)
  | s, c :: rest =>
    match stateStep s c with
    | none => false
    | some s' => scanString s' rest

/-- `getu4(s)`: the rune of a `\uXXXX` escape at the start of `s`, `none` (Go: `-1`) when
there is none. -/
def getu4 (s : Bytes) : Option Nat :=
  match s with
  | b :: u :: h1 :: h2 :: h3 :: h4 :: _ =>
    if b.toNat = 0x5C ∧ u.toNat = 0x75 ∧ isHex h1 ∧ isHex h2 ∧ isHex h3 ∧ isHex h4 then
      some (((hexVal h1 * 16 + hexVal h2) * 16 + hexVal h3) * 16 + hexVal h4)
    else none
  | _ => none

/-- `utf16.IsSurrogate(r)`. -/
def IsSurrogate (r : Nat) : Bool :=
  0xD800 ≤ r && r < 0xE000

/-- `utf16.DecodeRune(r1, r2)` with the second rune read by `getu4`: the rune of a valid
surrogate pair, `unicode.ReplacementChar` otherwise. -/
def utf16DecodeRune (r1 : Nat) (r2 : Option Nat) : Nat :=
  match r2 with
  | none => RuneError
  | some r2 =>
    if 0xD800 ≤ r1 ∧ r1 < 0xDC00 ∧ 0xDC00 ≤ r2 ∧ r2 < 0xE000 then
      (r1 - 0xD800) * 0x400 + (r2 - 0xDC00) + 0x10000
    else RuneError

/-- One iteration of the first loop of `unquoteBytes` at `c :: rest`, `s[r:]`: the number
of bytes to go on by, `none` for the `break` at a backslash, a quote, a control character
or an invalid encoding. -/
def plainStep (c : UInt8) (rest : Bytes) : Option Nat :=
  if c.toNat = 0x5C ∨ c.toNat = 0x22 ∨ c.toNat < 0x20 then none
  else if c.toNat < 0x80 then some 1
  else
    let d := DecodeRune (c :: rest)
    if d.1 = RuneError ∧ d.2 = 1 then none else some d.2

/-- The first loop of `unquoteBytes`: the length `r` of the longest prefix of `s` without
a backslash, a quote, a control character or an invalid encoding. -/
def plainPrefix : Nat → Bytes → Nat
  | 0, _ => 0
  | _ + 1, [] => 0
  | fuel + 1, c :: rest =>
    match plainStep c rest with
    | none => 0
    | some n => n + plainPrefix fuel ((c :: rest).drop n)

/-- One iteration of the second loop of `unquoteBytes` at `c :: rest`, `s[r:]`: the bytes
written to `b` and the rest of `s` after it, `none` when the function returns `ok = false`. -/
def unquoteStep (c : UInt8) (rest : Bytes) : Option (Bytes × Bytes) :=
  if c.toNat = 0x5C then
    match rest with
    | [] => none
    | e :: rest1 =>
      if e.toNat = 0x22 ∨ e.toNat = 0x5C ∨ e.toNat = 0x2F ∨ e.toNat = 0x27 then
        some ([e], rest1)
      else if e.toNat = 0x62 then some ([0x08], rest1)
      else if e.toNat = 0x66 then some ([0x0C], rest1)
      else if e.toNat = 0x6E then some ([0x0A], rest1)
      else if e.toNat = 0x72 then some ([0x0D], rest1)
      else if e.toNat = 0x74 then some ([0x09], rest1)
      else if e.toNat = 0x75 then
        match getu4 (c :: rest) with
        | none => none
        | some rr =>
          let s6 := (c :: rest).drop 6
          if IsSurrogate rr then
            let dec := utf16DecodeRune rr (getu4 s6)
            if dec ≠ RuneError then some (EncodeRune dec, s6.drop 6)
            else some (EncodeRune RuneError, s6)
          else some (EncodeRune rr, s6)
      else none
  else if c.toNat = 0x22 ∨ c.toNat < 0x20 then none
  else if c.toNat < 0x80 then some ([c], rest)
  else
    let d := DecodeRune (c :: rest)
    some (EncodeRune d.1, (c :: rest).drop d.2)

/-- The second loop of `unquoteBytes` over the rest `s[r:]`: the bytes written to `b`,
`none` when the function returns `ok = false`. -/
def unquoteLoop : Nat → Bytes → Option Bytes
  | 0, s => if s.isEmpty then some [] else none
  | _ + 1, [] => some []
  | fuel + 1, c :: rest =>
    match unquoteStep c rest with
    | none => none
    | some (w, s') => (unquoteLoop fuel s').map (w ++ ·)

/-- `unquoteBytes(s)` on a quoted item: the string the literal stands for. -/
def unquoteBytes (item : Bytes) : Option Bytes :=
  match item with
  | [] => none
  | q :: rest =>
    if rest.length < 1 ∨ q.toNat ≠ 0x22 ∨ rest.getLast?.map UInt8.toNat ≠ some 0x22 then none
    else
      let s := rest.dropLast
      let r := plainPrefix s.length s
      if r = s.length then some s
      else (unquoteLoop s.length (s.drop r)).map (s.take r ++ ·)

/-- `json.Unmarshal` into a `*string`: `null` leaves the target as it is; a string literal
is unquoted and stored; every other document is an error. -/
def UnmarshalString (data : Bytes) (target : Bytes) : Bytes × Option Error :=
  let item := trimSpace data
  if item = nullBytes then (target, none)
  else
    match item with
    | [] => (target, some Error.mk)
    | q :: rest =>
      if q.toNat = 0x22 ∧ scanString StringState.inString rest then
        match unquoteBytes item with
        | some s => (s, none)
        | none => (target, some Error.mk)
      else (target, some Error.mk)

end json

namespace optional

/-- The value type `string`, wrapped by `type String = Optional[string]`.  A Go string is
a sequence of bytes, not necessarily valid UTF-8. -/
def stringType : ValueType Bytes json.Error :=
  { zero := [], Marshal := json.MarshalString, Unmarshal := json.UnmarshalString }

/-- The value type `Optional[int]`, wrapped by the instantiation `Optional[Optional[int]]`
of the generic type.  `json.Marshal` on it calls its `MarshalJSON` (whose output, a number
or `null`, `compact` leaves as it is); `json.Unmarshal` into it checks the document and
calls its `UnmarshalJSON` on the bytes of the one value of the document. -/
def optionalIntType : ValueType (Optional Int) json.Error :=
  { zero := Optional.zeroValue intType
    Marshal := fun v => Optional.MarshalJSON intType v
    Unmarshal := fun data target =>
      if json.trimSpace data = [] then (target, some json.Error.mk)
      else Optional.UnmarshalJSON intType target (json.trimSpace data) }

end optional

instance {ε α : Type} [DecidableEq ε] [DecidableEq α] : DecidableEq (Except ε α)
  | .ok a, .ok b =>
    if h : a = b then isTrue (by rw [h]) else isFalse (by intro h2; cases h2; exact h rfl)
  | .error a, .error b =>
    if h : a = b then isTrue (by rw [h]) else isFalse (by intro h2; cases h2; exact h rfl)
  | .ok _, .error _ => isFalse (by intro h; cases h)
  | .error _, .ok _ => isFalse (by intro h; cases h)

namespace optional

/-- The zero-value invariant of a wrapper: an absent wrapper holds the zero value of `T`. -/
def ZeroValueInvariant {T E : Type} (vt : ValueType T E) (o : Optional T) : Prop :=
  o.IsSet = false → o.Value = vt.zero

/-- The wrapper after a sequence of `UnmarshalJSON` calls, one per input, whatever each
call returned. -/
def decodeAll {T E : Type} (vt : ValueType T E) (o : Optional T) (inputs : List Bytes) :
    Optional T :=
  inputs.foldl (fun o b => (Optional.UnmarshalJSON vt o b).1) o

end optional

/-!
## Host records under `encoding/json`

A host struct with wrapped fields is encoded and decoded by `encoding/json`, which is not
part of the repository either: `json.Marshal` writes one member per field, asking each
wrapped field for its `MarshalJSON`, and `json.Unmarshal` checks the document, walks the
members of the object and hands the bytes of each value to the `UnmarshalJSON` of the field
the key names.  The model below follows the Go standard library (Go 1.24 for the field
option `omitzero`); the content of errors is left out as before.
-/

namespace json

open optional (Bytes nullBytes ValueType Optional)

/-- The white space the scanner skips before a token. -/
def skipSpace (b : Bytes) : Bytes :=
  b.dropWhile isSpace

/-- The scanner inside a string literal, run from state `s` on the bytes after the opening
quote: the input that follows the closing quote, `none` on `scanError` or when the input
ends inside the literal. -/
def scanStringRest : StringState → Bytes → Option Bytes
  | _, [] => none
  | s, c :: rest =>
    match stateStep s c with
    | none => none
    | some s' => if s' = StringState.endTop then some rest else scanStringRest s' rest

/-- The states of the scanner inside a number: `stateNeg`, `state0`, `state1`, `stateDot`,
`stateDot0`, `stateE`, `stateESign`, `stateE0`. -/
inductive NumberState where
  | neg
  | zero
  | one
  | dot
  | dot0
  | e
  | eSign
  | e0
deriving DecidableEq, Repr

/-- One step of the scanner inside a number on the byte `c`; `none` when `c` does not go on
with the number. -/
def numberStep (s : NumberState) (c : UInt8) : Option NumberState :=
  match s with
  | NumberState.neg =>
    if c.toNat = 0x30 then some NumberState.zero
    else if 0x31 ≤ c.toNat ∧ c.toNat ≤ 0x39 then some NumberState.one
    else none
  | NumberState.zero =>
    if c.toNat = 0x2E then some NumberState.dot
    else if c.toNat = 0x65 ∨ c.toNat = 0x45 then some NumberState.e
    else none
  | NumberState.one =>
    if isDigit c then some NumberState.one
    else if c.toNat = 0x2E then some NumberState.dot
    else if c.toNat = 0x65 ∨ c.toNat = 0x45 then some NumberState.e
    else none
  | NumberState.dot => if isDigit c then some NumberState.dot0 else none
  | NumberState.dot0 =>
    if isDigit c then some NumberState.dot0
    else if c.toNat = 0x65 ∨ c.toNat = 0x45 then some NumberState.e
    else none
  | NumberState.e =>
    if c.toNat = 0x2B ∨ c.toNat = 0x2D then some NumberState.eSign
    else if isDigit c then some NumberState.e0
    else none
  | NumberState.eSign => if isDigit c then some NumberState.e0 else none
  | NumberState.e0 => if isDigit c then some NumberState.e0 else none

/-- The states in which a number may end (`state0`, `state1`, `stateDot0`, `stateE0` pass
the next byte on to `stateEndValue`; the others report an error). -/
def numberEnds (s : NumberState) : Bool :=
  match s with
  | NumberState.zero => true
  | NumberState.one => true
  | NumberState.dot0 => true
  | NumberState.e0 => true
  | _ => false

/-- The scanner inside a number, run from state `s`: the input from the first byte on that
is not part of the number, `none` when the number is not complete there. -/
def scanNumberRest : NumberState → Bytes → Option Bytes
  | s, [] => if numberEnds s then some [] else none
  | s, c :: rest =>
    match numberStep s c with
    | some s' => scanNumberRest s' rest
    | none => if numberEnds s then some (c :: rest) else none

/-- The scanner on one of the literals `true`, `false`, `null` (`stateT` to `stateNul`): the
input after the literal. -/
def scanLiteralRest (lit input : Bytes) : Option Bytes :=
  if input.take lit.length = lit then some (input.drop lit.length) else none

/-- The greatest nesting depth of arrays and objects the scanner accepts. -/
def maxNestingDepth : Nat := 10000

/-- What follows a value inside an object or an array, white space skipped: `some true` for
the comma, `some false` for the closing bracket `close`, `none` for anything else
(`stateEndValue`); with the input after it. -/
def valueEnd (close : Nat) (input : Bytes) : Option (Bool × Bytes) :=
  match skipSpace input with
  | [] => none
  | d :: rest =>
    if d.toNat = close then some (false, rest)
    else if d.toNat = 0x2C then some (true, rest)
    else none

/-- The key of a member, at `input` (`stateBeginString`): the key literal with its quotes
and, past the colon and white space, the input at the value of the member. -/
def memberKey (input : Bytes) : Option (Bytes × Bytes) :=
  match input with
  | [] => none
  | q :: rest =>
    if q.toNat ≠ 0x22 then none
    else
      match scanStringRest StringState.inString rest with
      | none => none
      | some r1 =>
        match skipSpace r1 with
        | [] => none
        | colon :: r2 =>
          if colon.toNat ≠ 0x3A then none
          else some ((q :: rest).take ((q :: rest).length - r1.length), skipSpace r2)

mutual

/-- The scanner on one JSON value at the head of `input` (no white space before it), with
`depth` more levels of nesting allowed: the input after the value, `none` on `scanError`
or when the input ends inside the value. -/
def scanValue : Nat → Nat → Bytes → Option Bytes
  | 0, _, _ => none
  | _ + 1, _, [] => none
  | fuel + 1, depth, c :: rest =>
    if c.toNat = 0x7B then
      if depth = 0 then none
      else
        match valueEnd 0x7D rest with
        | some (false, r) => some r
        | _ => (scanMembers fuel (depth - 1) (skipSpace rest)).map (fun p => p.2)
    else if c.toNat = 0x5B then
      if depth = 0 then none
      else
        match valueEnd 0x5D rest with
        | some (false, r) => some r
        | _ => scanElements fuel (depth - 1) (skipSpace rest)
    else if c.toNat = 0x22 then scanStringRest StringState.inString rest
    else if c.toNat = 0x2D then scanNumberRest NumberState.neg rest
    else if c.toNat = 0x30 then scanNumberRest NumberState.zero rest
    else if 0x31 ≤ c.toNat ∧ c.toNat ≤ 0x39 then scanNumberRest NumberState.one rest
    else if c.toNat = 0x74 then scanLiteralRest trueBytes (c :: rest)
    else if c.toNat = 0x66 then scanLiteralRest falseBytes (c :: rest)
    else if c.toNat = 0x6E then scanLiteralRest nullBytes (c :: rest)
    else none

/-- The scanner on the members of an object, at the key of a member: the members, each
the key literal and the bytes of the value, and the input after the closing brace. -/
def scanMembers : Nat → Nat → Bytes → Option (List (Bytes × Bytes) × Bytes)
  | 0, _, _ => none
  | fuel + 1, depth, input =>
    match memberKey input with
    | none => none
    | some (key, v) =>
      match scanValue fuel depth v with
      | none => none
      | some r3 =>
        match valueEnd 0x7D r3 with
        | none => none
        | some (false, r4) => some ([(key, v.take (v.length - r3.length))], r4)
        | some (true, r4) =>
          (scanMembers fuel depth (skipSpace r4)).map
            (fun p => ((key, v.take (v.length - r3.length)) :: p.1, p.2))

/-- The scanner on the elements of an array, at an element: the input after the closing
bracket. -/
def scanElements : Nat → Nat → Bytes → Option Bytes
  | 0, _, _ => none
  | fuel + 1, depth, input =>
    match scanValue fuel depth input with
    | none => none
    | some r =>
      match valueEnd 0x5D r with
      | none => none
      | some (false, r1) => some r1
      | some (true, r1) => scanElements fuel depth (skipSpace r1)

end

/-- `checkValid(data)`: the document is white space, one JSON value, white space. -/
def checkValid (data : Bytes) : Bool :=
  match scanValue (2 * data.length + 2) maxNestingDepth (skipSpace data) with
  | none => false
  | some rest => rest.all isSpace

/-- The members of the object that the document `data` is, `none` when the document is
not valid or its value is not an object. -/
def objectMembers (data : Bytes) : Option (List (Bytes × Bytes)) :=
  if checkValid data then
    match skipSpace data with
    | [] => none
    | c :: rest =>
      if c.toNat ≠ 0x7B then none
      else
        match valueEnd 0x7D rest with
        | some (false, _) => some []
        | _ =>
          (scanMembers (2 * data.length + 2) (maxNestingDepth - 1) (skipSpace rest)).map
            (fun p => p.1)
  else none

/-- An ASCII letter in upper case, as `foldName` writes it; other bytes as they are. -/
def foldByte (c : UInt8) : UInt8 :=
  if 0x61 ≤ c.toNat ∧ c.toNat ≤ 0x7A then UInt8.ofNat (c.toNat - 0x20) else c

/-- The image of a name under `foldName` as far as it is ASCII: ASCII letters in upper
case, the long s (U+017F, bytes `C5 BF`) as `S` and the Kelvin sign (U+212A, bytes
`E2 84 AA`) as `K`, the two runes outside ASCII that `unicode.SimpleFold` puts with an ASCII
letter; other bytes as they are. -/
def foldName : Bytes → Bytes
  | [] => []
  | [c] => [foldByte c]
  | [c, d] =>
    if c.toNat = 0xC5 ∧ d.toNat = 0xBF then [0x53] else foldByte c :: foldName [d]
  | c :: d :: e :: rest =>
    if c.toNat = 0xC5 ∧ d.toNat = 0xBF then 0x53 :: foldName (e :: rest)
    else if c.toNat = 0xE2 ∧ d.toNat = 0x84 ∧ e.toNat = 0xAA then 0x4B :: foldName rest
    else foldByte c :: foldName (d :: e :: rest)

/-- The field options of a struct tag that decide whether a member is written. -/
inductive Tag where
  | none
  | omitempty
  | omitzero
deriving DecidableEq, Repr

/-- A field of a host struct `R` as `encoding/json` sees it: the key, whether the encoder
leaves the member out for a value of the struct, the encoder of the field, the decoder of
the field on the bytes of a value, and whether an error of the decoder ends the decoding
(the error of an `Unmarshaler`) or is saved while the decoding goes on
(`UnmarshalTypeError`). -/
structure StructField (R : Type) where
  name : Bytes
  omitted : R → Bool
  Marshal : R → Except Error Bytes
  Unmarshal : Bytes → R → R × Option Error
  abort : Bool

/-- A field of type `string`: empty under `omitempty` and zero under `omitzero` when it is
the empty string. -/
def stringField {R : Type} (name : Bytes) (tag : Tag) (get : R → Bytes)
    (set : R → Bytes → R) : StructField R :=
  { name := name
    omitted := fun r =>
      match tag with
      | Tag.none => false
      | Tag.omitempty => (get r).isEmpty
      | Tag.omitzero => (get r).isEmpty
    Marshal := fun r => MarshalString (get r)
    Unmarshal := fun raw r => (set r (UnmarshalString raw (get r)).1,
      (UnmarshalString raw (get r)).2)
    abort := false }

/-- A field of type `Optional[T]`, for a value type whose encoder writes compact JSON
(`bool`, `int`, `string`), which `compact` leaves as it is.  The encoder calls `MarshalJSON`
and the decoder `UnmarshalJSON`.  A struct is never empty for `omitempty` (`isEmptyValue`);
under `omitzero` the member is left out when `IsZero()` is true. -/
def optionalField {R T : Type} (vt : ValueType T Error) (name : Bytes) (tag : Tag)
    (get : R → Optional T) (set : R → Optional T → R) : StructField R :=
  { name := name
    omitted := fun r =>
      match tag with
      | Tag.none => false
      | Tag.omitempty => false
      | Tag.omitzero => (get r).IsZero
    Marshal := fun r => Optional.MarshalJSON vt (get r)
    Unmarshal := fun raw r => (set r (Optional.UnmarshalJSON vt (get r) raw).1,
      (Optional.UnmarshalJSON vt (get r) raw).2)
    abort := true }

/-- The members the struct encoder writes for `r`: for each field that is not left out,
the key literal and the bytes of the value; the first error of a field encoder ends the
encoding. -/
def encodeMembers {R : Type} : List (StructField R) → R → Except Error (List (Bytes × Bytes))
  | [], _ => Except.ok []
  | f :: fs, r =>
    if f.omitted r then encodeMembers fs r
    else
      match f.Marshal r with
      | Except.error e => Except.error e
      | Except.ok v =>
        match encodeMembers fs r with
        | Except.error e => Except.error e
        | Except.ok ms => Except.ok ((appendString f.name, v) :: ms)

/-- The members between the braces: key, colon, value, with commas in between. -/
def renderMembers : List (Bytes × Bytes) → Bytes
  | [] => []
  | [m] => m.1 ++ 0x3A :: m.2
  | m :: ms => m.1 ++ 0x3A :: (m.2 ++ 0x2C :: renderMembers ms)

/-- `json.Marshal` on a struct with the given fields (`structEncoder`). -/
def marshalStruct {R : Type} (fields : List (StructField R)) (r : R) : Except Error Bytes :=
  match encodeMembers fields r with
  | Except.error e => Except.error e
  | Except.ok ms => Except.ok (0x7B :: (renderMembers ms ++ [0x7D]))

/-- The field a key names: the field of that very name, else the first field whose name
is the same under `foldName`. -/
def findField {R : Type} (fields : List (StructField R)) (key : Bytes) : Option (StructField R) :=
  match fields.find? (fun f => decide (f.name = key)) with
  | some f => some f
  | none => fields.find? (fun f => decide (foldName f.name = foldName key))

/-- The loop of `(*decodeState).object` over the members of the document for a struct: a
member whose key names no field is skipped; the others are decoded by the field; an error
of an `Unmarshaler` is returned at once, another error is saved (the first one is kept)
and returned at the end. -/
def applyMembers {R : Type} (fields : List (StructField R)) :
    List (Bytes × Bytes) → R → Option Error → R × Option Error
  | [], r, saved => (r, saved)
  | m :: ms, r, saved =>
    match unquoteBytes m.1 with
    | none => (r, some Error.mk)
    | some key =>
      match findField fields key with
      | none => applyMembers fields ms r saved
      | some f =>
        match (f.Unmarshal m.2 r).2 with
        | none => applyMembers fields ms (f.Unmarshal m.2 r).1 saved
        | some e =>
          if f.abort then ((f.Unmarshal m.2 r).1, some e)
          else applyMembers fields ms (f.Unmarshal m.2 r).1 (if saved.isSome then saved else some e)

/-- `json.Unmarshal` into a pointer to a struct with the given fields: a document that is
not valid is an error and nothing is written; `null` leaves the struct as it is; an object
is decoded member by member; every other value is an error. -/
def unmarshalStruct {R : Type} (fields : List (StructField R)) (data : Bytes) (r : R) :
    R × Option Error :=
  if checkValid data then
    match objectMembers data with
    | some ms => applyMembers fields ms r none
    | none => if trimSpace data = nullBytes then (r, none) else (r, some Error.mk)
  else (r, some Error.mk)

/-- A key literal: an opening quote and bytes that the scanner accepts as the rest of one
string literal, whatever follows. -/
def IsKey (k : Bytes) : Prop :=
  ∃ w, k = 0x22 :: w ∧ ∀ t, scanStringRest StringState.inString (w ++ t) = some t

/-- The bytes of one JSON value as a member of an object: they do not start with white
space and, followed by a comma or a closing brace, the scanner reads them as one value and
stops at that byte. -/
def IsToken (v : Bytes) : Prop :=
  (∃ c w, v = c :: w ∧ isSpace c = false)
    ∧ ∀ (fuel depth : Nat) (d : UInt8) (t : Bytes), d.toNat = 0x2C ∨ d.toNat = 0x7D →
        scanValue (fuel + 1) depth (v ++ d :: t) = some (d :: t)

end json

namespace optional

open json (StructField Tag stringField optionalField)

/-- The struct `User` of `TestRealWorldUsage`: `Name string`, `Age Int`, `Email String`,
`Verified Bool`. -/
structure User where
  Name : Bytes
  Age : Optional Int
  Email : Optional Bytes
  Verified : Optional Bool
deriving DecidableEq, Repr

/-- The zero value of `User` (`var result User`). -/
def User.zeroValue : User :=
  { Name := [], Age := Optional.zeroValue intType, Email := Optional.zeroValue stringType,
    Verified := Optional.zeroValue boolType }

/-- The field `Name` with its tag `json:"name"`. -/
def userName : StructField User :=
  stringField [0x6E, 0x61, 0x6D, 0x65] Tag.none User.Name (fun u v => { u with Name := v })

/-- The field `Age` with its tag `json:"age"`. -/
def userAge : StructField User :=
  optionalField intType [0x61, 0x67, 0x65] Tag.none User.Age (fun u v => { u with Age := v })

/-- The field `Email` with its tag `json:"email,omitempty"`. -/
def userEmail : StructField User :=
  optionalField stringType [0x65, 0x6D, 0x61, 0x69, 0x6C] Tag.omitempty User.Email
    (fun u v => { u with Email := v })

/-- The field `Verified` with its tag `json:"verified,omitempty"`. -/
def userVerified : StructField User :=
  optionalField boolType [0x76, 0x65, 0x72, 0x69, 0x66, 0x69, 0x65, 0x64] Tag.omitempty
    User.Verified (fun u v => { u with Verified := v })

/-- The fields of `User` in the order of the declaration. -/
def userFields : List (StructField User) :=
  [userName, userAge, userEmail, userVerified]

/-- The host record of the scenario: `name: string`, `age: optional<int>`,
`email: optional<string>`. -/
structure HostRecord where
  name : Bytes
  age : Optional Int
  email : Optional Bytes
deriving DecidableEq, Repr

/-- The zero value of the host record. -/
def HostRecord.zeroValue : HostRecord :=
  { name := [], age := Optional.zeroValue intType, email := Optional.zeroValue stringType }

/-- The fields of the host record with key suppression enabled for the optional fields:
the host asks `IsZero()` before it writes the key (the field option `omitzero`). -/
def hostRecordFields : List (StructField HostRecord) :=
  [stringField [0x6E, 0x61, 0x6D, 0x65] Tag.none HostRecord.name
      (fun r v => { r with name := v }),
    optionalField intType [0x61, 0x67, 0x65] Tag.omitzero HostRecord.age
      (fun r v => { r with age := v }),
    optionalField stringType [0x65, 0x6D, 0x61, 0x69, 0x6C] Tag.omitzero HostRecord.email
      (fun r v => { r with email := v })]

end optional

namespace json

open optional (Bytes nullBytes ValueType Optional)

/-- The order of `strings.Compare` on Go strings: byte by byte, a proper beginning first. -/
def bytesLE : Bytes → Bytes → Bool
  | [], _ => true
  | _ :: _, [] => false
  | a :: as, b :: bs => if a.toNat < b.toNat then true else if b.toNat < a.toNat then false
    else bytesLE as bs

/-- The entry of `key` set to `v` in a map given by its entries (`v.SetMapIndex`). -/
def setEntry {A : Type} (key : Bytes) (v : A) : List (Bytes × A) → List (Bytes × A)
  | [] => [(key, v)]
  | e :: es => if e.1 = key then (key, v) :: es else e :: setEntry key v es

/-- The members the map encoder writes for the entries, in the order given: the first
error of the encoder of the elements ends the encoding. -/
def encodeEntries {A : Type} (elem : ValueType A Error) :
    List (Bytes × A) → Except Error (List (Bytes × Bytes))
  | [] => Except.ok []
  | e :: es =>
    match elem.Marshal e.2 with
    | Except.error err => Except.error err
    | Except.ok v =>
      match encodeEntries elem es with
      | Except.error err => Except.error err
      | Except.ok ms => Except.ok ((appendString e.1, v) :: ms)

/-- `json.Marshal` on a `map[string]A` (`mapEncoder`): `null` for the nil map, else an
object with the entries sorted by key. -/
def marshalMap {A : Type} (elem : ValueType A Error) (m : Option (List (Bytes × A))) :
    Except Error Bytes :=
  match m with
  | none => Except.ok nullBytes
  | some es =>
    match encodeEntries elem (es.insertionSort (fun a b => bytesLE a.1 b.1 = true)) with
    | Except.error err => Except.error err
    | Except.ok ms => Except.ok (0x7B :: (renderMembers ms ++ [0x7D]))

/-- The loop of `(*decodeState).object` over the members of the document for a map: each
value is decoded into a fresh zero element, which is then stored under the key, also when
the decoder of the element reported an error; the first error is kept. -/
def applyEntries {A : Type} (elem : ValueType A Error) :
    List (Bytes × Bytes) → List (Bytes × A) → Option Error → List (Bytes × A) × Option Error
  | [], es, saved => (es, saved)
  | m :: ms, es, saved =>
    match unquoteBytes m.1 with
    | none => (es, some Error.mk)
    | some key =>
      applyEntries elem ms (setEntry key (elem.Unmarshal m.2 elem.zero).1 es)
        (if saved.isSome then saved else (elem.Unmarshal m.2 elem.zero).2)

/-- `json.Unmarshal` into a pointer to a `map[string]A`: a document that is not valid is an
error and nothing is written; `null` sets the map to nil; an object is decoded into the map
that is there, keeping its entries, or into a new map when the map is nil; every other
value is an error. -/
def unmarshalMap {A : Type} (elem : ValueType A Error) (data : Bytes)
    (target : Option (List (Bytes × A))) : Option (List (Bytes × A)) × Option Error :=
  if checkValid data then
    match objectMembers data with
    | some ms => (some (applyEntries elem ms (target.getD []) none).1,
        (applyEntries elem ms (target.getD []) none).2)
    | none => if trimSpace data = nullBytes then (none, none) else (target, some Error.mk)
  else (target, some Error.mk)

end json

namespace optional

/-- The value type `map[string]A` for elements without methods of their own; the nil map
is `none`, another map is given by its entries. -/
def mapType {A : Type} (elem : ValueType A json.Error) :
    ValueType (Option (List (Bytes × A))) json.Error :=
  { zero := none, Marshal := json.marshalMap elem, Unmarshal := json.unmarshalMap elem }

/-- The value type `map[string]string`, wrapped by
`type MapStringString = Optional[map[string]string]`. -/
def mapStringStringType : ValueType (Option (List (Bytes × Bytes))) json.Error :=
  mapType stringType

/-- The value type `any`, wrapped by `type Any = Optional[any]`: the nil interface is
`none`, for which `json.Marshal` writes `null` (`interfaceEncoder`).  What `json.Marshal`
writes for the dynamic values `D` that are not nil, and what `json.Unmarshal` does, are
parameters. -/
def anyType {D : Type} (marshal : D → Except json.Error Bytes)
    (unmarshal : Bytes → Option D → Option D × Option json.Error) :
    ValueType (Option D) json.Error :=
  { zero := none
    Marshal := fun v =>
      match v with
      | none => Except.ok nullBytes
      | some d => marshal d
    Unmarshal := unmarshal }

/-- The value type `map[string]any`, wrapped by
`type MapStringAny = Optional[map[string]any]`. -/
def mapStringAnyType {D : Type} (marshal : D → Except json.Error Bytes)
    (unmarshal : Bytes → Option D → Option D × Option json.Error) :
    ValueType (Option (List (Bytes × Option D))) json.Error :=
  mapType (anyType marshal unmarshal)

end optional

namespace json

open optional (Bytes nullBytes)

/-! ## Lemmas on the scalar value types -/

theorem toNat_ofNat_lt (n : Nat) (h : n < 256) : (UInt8.ofNat n).toNat = n :=
  UInt8.toNat_ofNat_of_lt h

theorem ofNat_toNat (b : UInt8) : UInt8.ofNat b.toNat = b := by
  apply UInt8.toNat.inj
  rw [toNat_ofNat_lt _ (UInt8.toNat_lt_size b)]

theorem byte_lt (b : UInt8) : b.toNat < 256 := UInt8.toNat_lt_size b

theorem isSpace_false_of_toNat (c : UInt8) (h : 0x20 < c.toNat) : isSpace c = false := by
  have h1 : c ≠ 0x20 := by intro hc; rw [hc] at h; revert h; decide
  have h2 : c ≠ 0x09 := by intro hc; rw [hc] at h; revert h; decide
  have h3 : c ≠ 0x0d := by intro hc; rw [hc] at h; revert h; decide
  have h4 : c ≠ 0x0a := by intro hc; rw [hc] at h; revert h; decide
  simp [isSpace, h1, h2, h3, h4]

theorem trimSpace_eq (s : Bytes)
    (hhead : ∀ c, s.head? = some c → isSpace c = false)
    (hlast : ∀ c, s.getLast? = some c → isSpace c = false) : trimSpace s = s := by
  unfold trimSpace
  have h1 : s.dropWhile isSpace = s := by
    cases s with
    | nil => rfl
    | cons c cs =>
      have := hhead c rfl
      simp [List.dropWhile, this]
  rw [h1]
  have h2 : s.reverse.dropWhile isSpace = s.reverse := by
    cases hr : s.reverse with
    | nil => rfl
    | cons c cs =>
      have hl : s.getLast? = some c := by
        rw [← List.head?_reverse, hr]; rfl
      have := hlast c hl
      simp [List.dropWhile, this]
  rw [h2, List.reverse_reverse]

theorem formatBits_acc (fuel u : Nat) (acc : Bytes) :
    formatBits fuel u acc = formatBits fuel u [] ++ acc := by
  induction fuel generalizing u acc with
  | zero => simp [formatBits]
  | succ f ih =>
    unfold formatBits
    by_cases h : u < 10
    · simp [h]
    · simp only [h, if_false]
      rw [ih (u / 10) (UInt8.ofNat (0x30 + u % 10) :: acc),
        ih (u / 10) [UInt8.ofNat (0x30 + u % 10)]]
      simp

theorem isDigit_digit (k : Nat) (h : k < 10) : isDigit (UInt8.ofNat (0x30 + k)) = true := by
  have := toNat_ofNat_lt (0x30 + k) (by omega)
  simp only [isDigit, this, Bool.and_eq_true, decide_eq_true_eq]
  omega

theorem formatBits_spec (fuel u : Nat) (h : u < fuel) :
    IsDecimalOf u (formatBits fuel u []) := by
  induction fuel generalizing u with
  | zero => omega
  | succ f ih =>
    unfold formatBits
    by_cases h10 : u < 10
    · simp only [h10, if_true]
      have hd := toNat_ofNat_lt (0x30 + u) (by omega)
      refine ⟨?_, by simp, ?_, ?_⟩
      · intro c hc
        simp at hc
        rw [hc]; exact isDigit_digit u h10
      · intro c hc
        simp at hc
        subst hc
        refine ⟨fun hu => ?_, fun _ => rfl⟩
        rw [hd]; omega
      · simp [parseDigits, hd]
    · simp only [h10, if_false]
      rw [formatBits_acc]
      have hlt : u / 10 < f := by omega
      obtain ⟨hdig, hne, hhead, hval⟩ := ih (u / 10) hlt
      have hd := toNat_ofNat_lt (0x30 + u % 10) (by omega)
      refine ⟨?_, by simp, ?_, ?_⟩
      · intro c hc
        rw [List.mem_append] at hc
        rcases hc with hc | hc
        · exact hdig c hc
        · simp at hc
          rw [hc]; exact isDigit_digit _ (by omega)
      · intro c hc
        cases hds : formatBits f (u / 10) [] with
        | nil => exact absurd hds hne
        | cons d ds =>
          rw [hds] at hc hhead
          simp at hc
          subst hc
          have := (hhead d rfl).1 (by omega)
          exact ⟨fun _ => this, fun h0 => by omega⟩
      · unfold parseDigits at hval ⊢
        rw [List.foldl_append, hval]
        simp [hd]
        omega

theorem isIntLiteral_of_isDecimalOf (u : Nat) (ds : Bytes) (h : IsDecimalOf u ds) :
    isIntLiteral ds = true := by
  obtain ⟨hdig, hne, hhead, _⟩ := h
  match ds, hne with
  | [c], _ => simpa [isIntLiteral] using hdig c (by simp)
  | c :: d :: cs, _ =>
    have h0 : u ≠ 0 := by
      intro h0
      have := (hhead c rfl).2 h0
      simp at this
    have hc := (hhead c rfl).1 h0
    simp only [isIntLiteral, Bool.and_eq_true, List.all_eq_true]
    refine ⟨⟨hdig c (by simp), by simpa using hc⟩, ?_⟩
    intro x hx
    exact hdig x (List.mem_cons_of_mem _ hx)

theorem isDecimalOf_head_last (u : Nat) (ds : Bytes) (h : IsDecimalOf u ds) :
    (∀ c, ds.head? = some c → isDigit c = true)
      ∧ (∀ c, ds.getLast? = some c → isDigit c = true) := by
  obtain ⟨hdig, _, _, _⟩ := h
  constructor
  · intro c hc
    exact hdig c (List.mem_of_mem_head? hc)
  · intro c hc
    exact hdig c (List.mem_of_mem_getLast? hc)

theorem isDigit_toNat (c : UInt8) (h : isDigit c = true) : 0x30 ≤ c.toNat ∧ c.toNat ≤ 0x39 := by
  simpa [isDigit] using h

/-- `json.Unmarshal` of the bytes `json.Marshal` wrote for an `int` gives the `int` back. -/
theorem UnmarshalInt_AppendInt (i : Int) (hi : isGoInt i) (target : Int) :
    UnmarshalInt (AppendInt i) target = (i, none) := by
  have hspec := formatBits_spec (i.natAbs + 1) i.natAbs (by omega)
  obtain ⟨hh, hl⟩ := isDecimalOf_head_last _ _ hspec
  have hlit := isIntLiteral_of_isDecimalOf _ _ hspec
  have hval := hspec.2.2.2
  have hne := hspec.2.1
  by_cases hneg : i < 0
  · have hA : AppendInt i = 0x2d :: formatBits (i.natAbs + 1) i.natAbs [] := by
      simp [AppendInt, hneg]
    have htrim : trimSpace (AppendInt i) = AppendInt i := by
      apply trimSpace_eq
      · intro c hc
        rw [hA] at hc
        simp at hc
        subst hc
        decide
      · intro c hc
        rw [hA] at hc
        cases hds : formatBits (i.natAbs + 1) i.natAbs [] with
        | nil => exact absurd hds hne
        | cons d ds =>
          rw [hds] at hc hl
          rw [List.getLast?_cons_cons] at hc
          exact isSpace_false_of_toNat c (by have := isDigit_toNat c (hl c hc); omega)
    unfold UnmarshalInt
    simp only [htrim]
    rw [hA]
    have hnn : (0x2d :: formatBits (i.natAbs + 1) i.natAbs [] : Bytes) ≠ nullBytes := by
      intro h
      simp [nullBytes] at h
    have hval' : (-(parseDigits (formatBits (i.natAbs + 1) i.natAbs []) : Int)) = i := by
      rw [hval]; omega
    simp only [hnn, if_false, if_true, hlit, hval', hi, and_self]
  · have hA : AppendInt i = formatBits (i.natAbs + 1) i.natAbs [] := by
      simp [AppendInt, hneg]
    have htrim : trimSpace (AppendInt i) = AppendInt i := by
      apply trimSpace_eq
      · intro c hc
        rw [hA] at hc
        exact isSpace_false_of_toNat c (by have := isDigit_toNat c (hh c hc); omega)
      · intro c hc
        rw [hA] at hc
        exact isSpace_false_of_toNat c (by have := isDigit_toNat c (hl c hc); omega)
    unfold UnmarshalInt
    simp only [htrim]
    rw [hA]
    cases hds : formatBits (i.natAbs + 1) i.natAbs [] with
    | nil => exact absurd hds hne
    | cons c ds =>
      rw [hds] at hlit hval hh
      have hc := isDigit_toNat c (hh c rfl)
      have hnn : (c :: ds : Bytes) ≠ nullBytes := by
        intro h
        simp [nullBytes] at h
        rw [h.1] at hc
        revert hc; decide
      have hc2 : c ≠ 0x2d := by
        intro h
        rw [h] at hc
        revert hc; decide
      have hval' : ((parseDigits (c :: ds) : Nat) : Int) = i := by
        rw [hval]; omega
      simp only [hnn, if_false, hc2, hlit, hval', hi, and_self, if_true]

theorem first_spec (p0 sz lo hi : Nat) (h : first p0 = some (sz, lo, hi)) :
    (sz = 2 ∧ 0xC2 ≤ p0 ∧ p0 ≤ 0xDF ∧ lo = 0x80 ∧ hi = 0xBF)
      ∨ (sz = 3 ∧ 0xE0 ≤ p0 ∧ p0 ≤ 0xEF ∧ 0x80 ≤ lo ∧ hi ≤ 0xBF
          ∧ (p0 = 0xE0 → lo = 0xA0) ∧ (p0 = 0xED → hi = 0x9F))
      ∨ (sz = 4 ∧ 0xF0 ≤ p0 ∧ p0 ≤ 0xF4 ∧ 0x80 ≤ lo ∧ hi ≤ 0xBF
          ∧ (p0 = 0xF0 → lo = 0x90) ∧ (p0 = 0xF4 → hi = 0x8F)) := by
  unfold first at h
  split_ifs at h <;> simp only [Option.some.injEq, Prod.mk.injEq] at h <;> omega

theorem enc2 (c b1 : Nat) (hc : 0xC2 ≤ c ∧ c ≤ 0xDF) (hb : 0x80 ≤ b1 ∧ b1 ≤ 0xBF) :
    0x80 ≤ c % 0x20 * 0x40 + b1 % 0x40 ∧ c % 0x20 * 0x40 + b1 % 0x40 ≤ 0x7FF
      ∧ 0xC0 + (c % 0x20 * 0x40 + b1 % 0x40) / 0x40 = c
      ∧ 0x80 + (c % 0x20 * 0x40 + b1 % 0x40) % 0x40 = b1 := by
  omega

theorem enc3 (c b1 b2 lo hi : Nat) (hc : 0xE0 ≤ c ∧ c ≤ 0xEF) (hlo : 0x80 ≤ lo) (hhi : hi ≤ 0xBF)
    (h0 : c = 0xE0 → lo = 0xA0) (hd : c = 0xED → hi = 0x9F)
    (hb1 : lo ≤ b1 ∧ b1 ≤ hi) (hb2 : 0x80 ≤ b2 ∧ b2 ≤ 0xBF) :
    0x800 ≤ c % 0x10 * 0x1000 + b1 % 0x40 * 0x40 + b2 % 0x40
      ∧ c % 0x10 * 0x1000 + b1 % 0x40 * 0x40 + b2 % 0x40 ≤ 0xFFFF
      ∧ ¬ (0xD800 ≤ c % 0x10 * 0x1000 + b1 % 0x40 * 0x40 + b2 % 0x40
            ∧ c % 0x10 * 0x1000 + b1 % 0x40 * 0x40 + b2 % 0x40 ≤ 0xDFFF)
      ∧ 0xE0 + (c % 0x10 * 0x1000 + b1 % 0x40 * 0x40 + b2 % 0x40) / 0x1000 = c
      ∧ 0x80 + (c % 0x10 * 0x1000 + b1 % 0x40 * 0x40 + b2 % 0x40) / 0x40 % 0x40 = b1
      ∧ 0x80 + (c % 0x10 * 0x1000 + b1 % 0x40 * 0x40 + b2 % 0x40) % 0x40 = b2 := by
  omega

theorem enc4 (c b1 b2 b3 lo hi : Nat) (hc : 0xF0 ≤ c ∧ c ≤ 0xF4) (hlo : 0x80 ≤ lo)
    (hhi : hi ≤ 0xBF) (h0 : c = 0xF0 → lo = 0x90) (h4 : c = 0xF4 → hi = 0x8F)
    (hb1 : lo ≤ b1 ∧ b1 ≤ hi) (hb2 : 0x80 ≤ b2 ∧ b2 ≤ 0xBF) (hb3 : 0x80 ≤ b3 ∧ b3 ≤ 0xBF) :
    0x10000 ≤ c % 0x08 * 0x40000 + b1 % 0x40 * 0x1000 + b2 % 0x40 * 0x40 + b3 % 0x40
      ∧ c % 0x08 * 0x40000 + b1 % 0x40 * 0x1000 + b2 % 0x40 * 0x40 + b3 % 0x40 ≤ 0x10FFFF
      ∧ 0xF0 + (c % 0x08 * 0x40000 + b1 % 0x40 * 0x1000 + b2 % 0x40 * 0x40 + b3 % 0x40)
          / 0x40000 = c
      ∧ 0x80 + (c % 0x08 * 0x40000 + b1 % 0x40 * 0x1000 + b2 % 0x40 * 0x40 + b3 % 0x40)
          / 0x1000 % 0x40 = b1
      ∧ 0x80 + (c % 0x08 * 0x40000 + b1 % 0x40 * 0x1000 + b2 % 0x40 * 0x40 + b3 % 0x40)
          / 0x40 % 0x40 = b2
      ∧ 0x80 + (c % 0x08 * 0x40000 + b1 % 0x40 * 0x1000 + b2 % 0x40 * 0x40 + b3 % 0x40)
          % 0x40 = b3 := by
  omega

theorem isCont_iff (b : Nat) : isCont b = true ↔ 0x80 ≤ b ∧ b ≤ 0xBF := by
  simp [isCont]

theorem ofNat_eq_of_toNat (n : Nat) (b : UInt8) (h : n = b.toNat) : UInt8.ofNat n = b := by
  rw [h]; exact ofNat_toNat b

theorem DecodeRune_two (c b1 : UInt8) (q : Bytes) (lo hi : Nat) (hc : 0x80 ≤ c.toNat)
    (hf : first c.toNat = some (2, lo, hi)) (hb1 : ¬ (b1.toNat < lo ∨ hi < b1.toNat)) :
    DecodeRune (c :: b1 :: q) = (c.toNat % 0x20 * 0x40 + b1.toNat % 0x40, 2) := by
  have hnlt : ¬ c.toNat < 0x80 := by omega
  simp [DecodeRune, hnlt, hf, hb1]

theorem DecodeRune_three (c b1 b2 : UInt8) (q : Bytes) (lo hi : Nat) (hc : 0x80 ≤ c.toNat)
    (hf : first c.toNat = some (3, lo, hi)) (hb1 : ¬ (b1.toNat < lo ∨ hi < b1.toNat))
    (hb2 : isCont b2.toNat = true) :
    DecodeRune (c :: b1 :: b2 :: q)
      = (c.toNat % 0x10 * 0x1000 + b1.toNat % 0x40 * 0x40 + b2.toNat % 0x40, 3) := by
  have hnlt : ¬ c.toNat < 0x80 := by omega
  simp [DecodeRune, hnlt, hf, hb1, hb2]

theorem DecodeRune_four (c b1 b2 b3 : UInt8) (q : Bytes) (lo hi : Nat) (hc : 0x80 ≤ c.toNat)
    (hf : first c.toNat = some (4, lo, hi)) (hb1 : ¬ (b1.toNat < lo ∨ hi < b1.toNat))
    (hb2 : isCont b2.toNat = true) (hb3 : isCont b3.toNat = true) :
    DecodeRune (c :: b1 :: b2 :: b3 :: q)
      = (c.toNat % 0x08 * 0x40000 + b1.toNat % 0x40 * 0x1000 + b2.toNat % 0x40 * 0x40
          + b3.toNat % 0x40, 4) := by
  have hnlt : ¬ c.toNat < 0x80 := by omega
  simp [DecodeRune, hnlt, hf, hb1, hb2, hb3]

theorem DecodeRune_multi (c : UInt8) (rest : Bytes) (hc : 0x80 ≤ c.toNat)
    (h : (DecodeRune (c :: rest)).2 ≠ 1) :
    2 ≤ (DecodeRune (c :: rest)).2 ∧ (DecodeRune (c :: rest)).2 ≤ (c :: rest).length
      ∧ EncodeRune (DecodeRune (c :: rest)).1 = (c :: rest).take (DecodeRune (c :: rest)).2
      ∧ (∀ x ∈ (c :: rest).take (DecodeRune (c :: rest)).2, 0x80 ≤ x.toNat)
      ∧ (∀ q, DecodeRune ((c :: rest).take (DecodeRune (c :: rest)).2 ++ q)
            = DecodeRune (c :: rest))
      ∧ 0x80 ≤ (DecodeRune (c :: rest)).1 := by
  have hnlt : ¬ c.toNat < 0x80 := by omega
  cases hf : first c.toNat with
  | none => simp [DecodeRune, hnlt, hf] at h
  | some t =>
    obtain ⟨sz, lo, hi⟩ := t
    have hs := first_spec _ _ _ _ hf
    cases rest with
    | nil => simp [DecodeRune, hnlt, hf] at h
    | cons b1 r1 =>
      by_cases hb1 : b1.toNat < lo ∨ hi < b1.toNat
      · simp [DecodeRune, hnlt, hf, hb1] at h
      · rcases hs with ⟨hsz, h1, h2, h3, h4⟩ | ⟨hsz, h1, h2, h3, h4, h5, h6⟩
            | ⟨hsz, h1, h2, h3, h4, h5, h6⟩
        · subst hsz
          have e := enc2 c.toNat b1.toNat ⟨h1, h2⟩ (by omega)
          have hD := fun q => DecodeRune_two c b1 q lo hi hc hf hb1
          rw [hD r1]
          refine ⟨by simp, by simp, ?_, ?_, ?_, by simp; omega⟩
          · have x1 : ¬ (c.toNat % 0x20 * 0x40 + b1.toNat % 0x40 ≤ 0x7F) := by omega
            simp only [EncodeRune, x1, if_false, e.2.1, if_true, List.take_succ_cons,
              List.take_zero]
            rw [ofNat_eq_of_toNat _ c e.2.2.1, ofNat_eq_of_toNat _ b1 e.2.2.2]
          · intro x hx
            simp at hx
            rcases hx with hx | hx <;> subst hx <;> omega
          · intro q
            simpa using hD q
        · subst hsz
          cases r1 with
          | nil => simp [DecodeRune, hnlt, hf, hb1] at h
          | cons b2 r2 =>
            by_cases hb2 : isCont b2.toNat = true
            · have hb2' := (isCont_iff _).1 hb2
              have e := enc3 c.toNat b1.toNat b2.toNat lo hi ⟨h1, h2⟩ h3 h4 h5 h6
                (by omega) hb2'
              have hD := fun q => DecodeRune_three c b1 b2 q lo hi hc hf hb1 hb2
              rw [hD r2]
              refine ⟨by simp, by simp, ?_, ?_, ?_, by simp; omega⟩
              · have x1 : ¬ (c.toNat % 0x10 * 0x1000 + b1.toNat % 0x40 * 0x40
                    + b2.toNat % 0x40 ≤ 0x7F) := by omega
                have x2 : ¬ (c.toNat % 0x10 * 0x1000 + b1.toNat % 0x40 * 0x40
                    + b2.toNat % 0x40 ≤ 0x7FF) := by omega
                have x3 : ¬ (0x10FFFF < c.toNat % 0x10 * 0x1000 + b1.toNat % 0x40 * 0x40
                    + b2.toNat % 0x40 ∨ (0xD800 ≤ c.toNat % 0x10 * 0x1000
                    + b1.toNat % 0x40 * 0x40 + b2.toNat % 0x40
                    ∧ c.toNat % 0x10 * 0x1000 + b1.toNat % 0x40 * 0x40
                    + b2.toNat % 0x40 ≤ 0xDFFF)) := by omega
                simp only [EncodeRune, x1, x2, x3, if_false, e.2.1, if_true,
                  List.take_succ_cons, List.take_zero]
                rw [ofNat_eq_of_toNat _ c e.2.2.2.1, ofNat_eq_of_toNat _ b1 e.2.2.2.2.1,
                  ofNat_eq_of_toNat _ b2 e.2.2.2.2.2]
              · intro x hx
                simp at hx
                rcases hx with hx | hx | hx <;> subst hx <;> omega
              · intro q
                simpa using hD q
            · simp [DecodeRune, hnlt, hf, hb1, hb2] at h
        · subst hsz
          cases r1 with
          | nil => simp [DecodeRune, hnlt, hf, hb1] at h
          | cons b2 r2 =>
            by_cases hb2 : isCont b2.toNat = true
            · cases r2 with
              | nil => simp [DecodeRune, hnlt, hf, hb1, hb2] at h
              | cons b3 r3 =>
                by_cases hb3 : isCont b3.toNat = true
                · have hb2' := (isCont_iff _).1 hb2
                  have hb3' := (isCont_iff _).1 hb3
                  have e := enc4 c.toNat b1.toNat b2.toNat b3.toNat lo hi ⟨h1, h2⟩ h3 h4 h5 h6
                    (by omega) hb2' hb3'
                  have hD := fun q => DecodeRune_four c b1 b2 b3 q lo hi hc hf hb1 hb2 hb3
                  rw [hD r3]
                  refine ⟨by simp, by simp, ?_, ?_, ?_, by simp; omega⟩
                  · have x1 : ¬ (c.toNat % 0x08 * 0x40000 + b1.toNat % 0x40 * 0x1000
                        + b2.toNat % 0x40 * 0x40 + b3.toNat % 0x40 ≤ 0x7F) := by omega
                    have x2 : ¬ (c.toNat % 0x08 * 0x40000 + b1.toNat % 0x40 * 0x1000
                        + b2.toNat % 0x40 * 0x40 + b3.toNat % 0x40 ≤ 0x7FF) := by omega
                    have x3 : ¬ (0x10FFFF < c.toNat % 0x08 * 0x40000 + b1.toNat % 0x40 * 0x1000
                        + b2.toNat % 0x40 * 0x40 + b3.toNat % 0x40
                        ∨ (0xD800 ≤ c.toNat % 0x08 * 0x40000 + b1.toNat % 0x40 * 0x1000
                        + b2.toNat % 0x40 * 0x40 + b3.toNat % 0x40
                        ∧ c.toNat % 0x08 * 0x40000 + b1.toNat % 0x40 * 0x1000
                        + b2.toNat % 0x40 * 0x40 + b3.toNat % 0x40 ≤ 0xDFFF)) := by omega
                    have x4 : ¬ (c.toNat % 0x08 * 0x40000 + b1.toNat % 0x40 * 0x1000
                        + b2.toNat % 0x40 * 0x40 + b3.toNat % 0x40 ≤ 0xFFFF) := by omega
                    simp only [EncodeRune, x1, x2, x3, x4, if_false, List.take_succ_cons,
                      List.take_zero]
                    rw [ofNat_eq_of_toNat _ c e.2.2.1, ofNat_eq_of_toNat _ b1 e.2.2.2.1,
                      ofNat_eq_of_toNat _ b2 e.2.2.2.2.1, ofNat_eq_of_toNat _ b3 e.2.2.2.2.2]
                  · intro x hx
                    simp at hx
                    rcases hx with hx | hx | hx | hx <;> subst hx <;> omega
                  · intro q
                    simpa using hD q
                · simp [DecodeRune, hnlt, hf, hb1, hb2, hb3] at h
            · simp [DecodeRune, hnlt, hf, hb1, hb2] at h

theorem DecodeRune_take (p : Bytes) : DecodeRune (p.take 4) = DecodeRune p := by
  match p with
  | [] => rfl
  | [_] => rfl
  | [_, _] => rfl
  | [_, _, _] => rfl
  | c :: b1 :: b2 :: b3 :: q =>
    simp only [List.take_succ_cons, List.take_zero]
    by_cases hlt : c.toNat < 0x80
    · simp [DecodeRune, hlt]
    · cases hf : first c.toNat with
      | none => simp [DecodeRune, hlt, hf]
      | some t =>
        obtain ⟨sz, lo, hi⟩ := t
        have hs := first_spec _ _ _ _ hf
        have hsz : sz ≤ 4 := by omega
        have l1 : ¬ ((c :: b1 :: b2 :: b3 :: q).length < sz) := by
          simp only [List.length_cons]; omega
        have l2 : ¬ ([c, b1, b2, b3].length < sz) := by
          simp only [List.length_cons, List.length_nil]; omega
        simp only [DecodeRune, hlt, hf, l1, l2, if_false]

theorem hex_spec (k : Nat) (h : k < 16) : isHex (hex k) = true ∧ hexVal (hex k) = k := by
  unfold hex
  by_cases h10 : k < 10
  · have e := toNat_ofNat_lt (0x30 + k) (by omega)
    simp only [h10, if_true, isHex, hexVal, e, Bool.or_eq_true, Bool.and_eq_true,
      decide_eq_true_eq]
    constructor
    · omega
    · have : 0x30 ≤ 0x30 + k ∧ 0x30 + k ≤ 0x39 := by omega
      simp only [this, and_self, if_true]
      omega
  · have e := toNat_ofNat_lt (0x61 + (k - 10)) (by omega)
    simp only [h10, if_false, isHex, hexVal, e, Bool.or_eq_true, Bool.and_eq_true,
      decide_eq_true_eq]
    constructor
    · omega
    · have h1 : ¬ (0x30 ≤ 0x61 + (k - 10) ∧ 0x61 + (k - 10) ≤ 0x39) := by omega
      have h2 : 0x61 ≤ 0x61 + (k - 10) ∧ 0x61 + (k - 10) ≤ 0x66 := by omega
      simp only [h1, h2, and_self, if_false, if_true]
      omega

theorem scanString_plain (c : UInt8) (t : Bytes) (h1 : c.toNat ≠ 0x22) (h2 : c.toNat ≠ 0x5C)
    (h3 : 0x20 ≤ c.toNat) :
    scanString StringState.inString (c :: t) = scanString StringState.inString t := by
  have h4 : ¬ c.toNat < 0x20 := by omega
  simp [scanString, stateStep, h1, h2, h4]

theorem scanString_high (w t : Bytes) (h : ∀ x ∈ w, 0x80 ≤ x.toNat) :
    scanString StringState.inString (w ++ t) = scanString StringState.inString t := by
  induction w with
  | nil => rfl
  | cons c w ih =>
    have hc := h c (by simp)
    rw [List.cons_append, scanString_plain c _ (by omega) (by omega) (by omega)]
    exact ih (fun x hx => h x (List.mem_cons_of_mem _ hx))

theorem scanString_esc (e : UInt8) (t : Bytes)
    (h : e.toNat = 0x62 ∨ e.toNat = 0x66 ∨ e.toNat = 0x6E ∨ e.toNat = 0x72 ∨ e.toNat = 0x74
      ∨ e.toNat = 0x5C ∨ e.toNat = 0x2F ∨ e.toNat = 0x22) :
    scanString StringState.inString (0x5C :: e :: t) = scanString StringState.inString t := by
  simp [scanString, stateStep, UInt8.size, h]

theorem scanString_u (h1 h2 h3 h4 : UInt8) (t : Bytes) (x1 : isHex h1 = true)
    (x2 : isHex h2 = true) (x3 : isHex h3 = true) (x4 : isHex h4 = true) :
    scanString StringState.inString (0x5C :: 0x75 :: h1 :: h2 :: h3 :: h4 :: t)
      = scanString StringState.inString t := by
  simp [scanString, stateStep, UInt8.size, x1, x2, x3, x4]

theorem unquoteStep_u (h1 h2 h3 h4 : UInt8) (t : Bytes) (x1 : isHex h1 = true)
    (x2 : isHex h2 = true) (x3 : isHex h3 = true) (x4 : isHex h4 = true)
    (hs : IsSurrogate (((hexVal h1 * 16 + hexVal h2) * 16 + hexVal h3) * 16 + hexVal h4)
      = false) :
    unquoteStep 0x5C (0x75 :: h1 :: h2 :: h3 :: h4 :: t)
      = some (EncodeRune (((hexVal h1 * 16 + hexVal h2) * 16 + hexVal h3) * 16 + hexVal h4),
          t) := by
  simp [unquoteStep, getu4, UInt8.size, x1, x2, x3, x4, hs]

theorem unquoteStep_plain (c : UInt8) (t : Bytes) (h1 : c.toNat ≠ 0x22) (h2 : c.toNat ≠ 0x5C)
    (h3 : 0x20 ≤ c.toNat) (h4 : c.toNat < 0x80) : unquoteStep c t = some ([c], t) := by
  have h5 : ¬ c.toNat < 0x20 := by omega
  simp [unquoteStep, h1, h2, h4, h5]

theorem unquoteStep_high (c : UInt8) (t : Bytes) (h : 0x80 ≤ c.toNat) :
    unquoteStep c t
      = some (EncodeRune (DecodeRune (c :: t)).1, (c :: t).drop (DecodeRune (c :: t)).2) := by
  have h1 : c.toNat ≠ 0x22 := by omega
  have h2 : c.toNat ≠ 0x5C := by omega
  have h4 : ¬ c.toNat < 0x80 := by omega
  have h5 : ¬ c.toNat < 0x20 := by omega
  simp [unquoteStep, h1, h2, h4, h5]

theorem byte_eq_of_toNat (b : UInt8) (n : Nat) (hn : n < 256) (h : b.toNat = n) :
    b = UInt8.ofNat n := by
  apply UInt8.toNat.inj
  rw [toNat_ofNat_lt n hn, h]

theorem EncodeRune_ascii (b : UInt8) (h : b.toNat < 0x80) : EncodeRune b.toNat = [b] := by
  have h1 : b.toNat ≤ 0x7F := by omega
  simp [EncodeRune, h1, ofNat_toNat]

theorem step_ascii (b : UInt8) (rest : Bytes) (hb : b.toNat < 0x80) :
    (appendStringStep b rest).2 = 1
      ∧ (∃ c' r', (appendStringStep b rest).1 = c' :: r'
          ∧ ∀ t, unquoteStep c' (r' ++ t) = some ([b], t))
      ∧ (∀ t, scanString StringState.inString ((appendStringStep b rest).1 ++ t)
            = scanString StringState.inString t) := by
  by_cases hs : htmlSafeSet b.toNat = true
  · have hst : appendStringStep b rest = ([b], 1) := by simp [appendStringStep, hb, hs]
    have hs' : 0x20 ≤ b.toNat ∧ b.toNat ≠ 0x22 ∧ b.toNat ≠ 0x5C := by
      simp [htmlSafeSet] at hs
      omega
    rw [hst]
    refine ⟨rfl, ⟨b, [], rfl, fun t => ?_⟩, fun t => ?_⟩
    · exact unquoteStep_plain b _ hs'.2.1 hs'.2.2 hs'.1 hb
    · exact scanString_plain b _ hs'.2.1 hs'.2.2 hs'.1
  · have hst : appendStringStep b rest = (escapeByte b, 1) := by
      simp [appendStringStep, hb, hs]
    rw [hst]
    refine ⟨rfl, ?_⟩
    unfold escapeByte
    by_cases c1 : b.toNat = 0x5C ∨ b.toNat = 0x22
    · simp only [c1, if_true]
      refine ⟨⟨0x5C, [b], rfl, fun t => ?_⟩, fun t => ?_⟩
      · rcases c1 with c1 | c1 <;> simp [unquoteStep, UInt8.size, c1]
      · exact scanString_esc b t (by omega)
    · simp only [c1, if_false]
      by_cases c2 : b.toNat = 0x08
      · simp only [c2, if_true]
        have hb8 := byte_eq_of_toNat b 0x08 (by omega) c2
        refine ⟨⟨0x5C, [0x62], rfl, fun t => ?_⟩, fun t => ?_⟩
        · rw [hb8]; simp [unquoteStep, UInt8.size]
        · exact scanString_esc 0x62 t (by decide)
      · simp only [c2, if_false]
        by_cases c3 : b.toNat = 0x0C
        · simp only [c3, if_true]
          have hb8 := byte_eq_of_toNat b 0x0C (by omega) c3
          refine ⟨⟨0x5C, [0x66], rfl, fun t => ?_⟩, fun t => ?_⟩
          · rw [hb8]; simp [unquoteStep, UInt8.size]
          · exact scanString_esc 0x66 t (by decide)
        · simp only [c3, if_false]
          by_cases c4 : b.toNat = 0x0A
          · simp only [c4, if_true]
            have hb8 := byte_eq_of_toNat b 0x0A (by omega) c4
            refine ⟨⟨0x5C, [0x6E], rfl, fun t => ?_⟩, fun t => ?_⟩
            · rw [hb8]; simp [unquoteStep, UInt8.size]
            · exact scanString_esc 0x6E t (by decide)
          · simp only [c4, if_false]
            by_cases c5 : b.toNat = 0x0D
            · simp only [c5, if_true]
              have hb8 := byte_eq_of_toNat b 0x0D (by omega) c5
              refine ⟨⟨0x5C, [0x72], rfl, fun t => ?_⟩, fun t => ?_⟩
              · rw [hb8]; simp [unquoteStep, UInt8.size]
              · exact scanString_esc 0x72 t (by decide)
            · simp only [c5, if_false]
              by_cases c6 : b.toNat = 0x09
              · simp only [c6, if_true]
                have hb8 := byte_eq_of_toNat b 0x09 (by omega) c6
                refine ⟨⟨0x5C, [0x74], rfl, fun t => ?_⟩, fun t => ?_⟩
                · rw [hb8]; simp [unquoteStep, UInt8.size]
                · exact scanString_esc 0x74 t (by decide)
              · simp only [c6, if_false]
                have hx1 := hex_spec (b.toNat / 0x10) (by omega)
                have hx2 := hex_spec (b.toNat % 0x10) (by omega)
                have h30 : isHex 0x30 = true := by decide
                have v30 : hexVal 0x30 = 0 := by decide
                refine ⟨⟨0x5C, [0x75, 0x30, 0x30, hex (b.toNat / 0x10), hex (b.toNat % 0x10)],
                  rfl, fun t => ?_⟩, fun t => ?_⟩
                · have hval : ((hexVal 0x30 * 16 + hexVal 0x30) * 16
                      + hexVal (hex (b.toNat / 0x10))) * 16
                      + hexVal (hex (b.toNat % 0x10)) = b.toNat := by
                    rw [v30, hx1.2, hx2.2]; omega
                  have hsur : IsSurrogate (((hexVal 0x30 * 16 + hexVal 0x30) * 16
                      + hexVal (hex (b.toNat / 0x10))) * 16
                      + hexVal (hex (b.toNat % 0x10))) = false := by
                    rw [hval]
                    simp [IsSurrogate]
                    omega
                  have := unquoteStep_u 0x30 0x30 (hex (b.toNat / 0x10))
                    (hex (b.toNat % 0x10)) t h30 h30 hx1.1 hx2.1 hsur
                  rw [hval, EncodeRune_ascii b hb] at this
                  exact this
                · exact scanString_u 0x30 0x30 _ _ t h30 h30 hx1.1 hx2.1

theorem step_high (b : UInt8) (rest : Bytes) (hb : 0x80 ≤ b.toNat)
    (hv : (DecodeRune (b :: rest)).2 ≠ 1) :
    (appendStringStep b rest).2 = (DecodeRune (b :: rest)).2
      ∧ (∃ c' r', (appendStringStep b rest).1 = c' :: r'
          ∧ ∀ t, unquoteStep c' (r' ++ t)
              = some ((b :: rest).take (DecodeRune (b :: rest)).2, t))
      ∧ (∀ t, scanString StringState.inString ((appendStringStep b rest).1 ++ t)
            = scanString StringState.inString t) := by
  obtain ⟨m1, m2, m3, m4, m5, m6⟩ := DecodeRune_multi b rest hb hv
  have hnlt : ¬ b.toNat < 0x80 := by omega
  have hne : ¬ ((DecodeRune (b :: rest)).1 = RuneError ∧ (DecodeRune (b :: rest)).2 = 1) :=
    fun h => hv h.2
  by_cases hls : (DecodeRune (b :: rest)).1 = 0x2028 ∨ (DecodeRune (b :: rest)).1 = 0x2029
  · have hst : appendStringStep b rest
        = ([0x5C, 0x75, 0x32, 0x30, 0x32, hex ((DecodeRune (b :: rest)).1 % 0x10)],
            (DecodeRune (b :: rest)).2) := by
      simp only [appendStringStep, hnlt, if_false, DecodeRune_take, hne, hls, if_true]
    rw [hst]
    refine ⟨rfl, ⟨0x5C, [0x75, 0x32, 0x30, 0x32, hex ((DecodeRune (b :: rest)).1 % 0x10)],
      rfl, fun t => ?_⟩, fun t => ?_⟩
    · rw [← m3]
      rcases hls with h | h
      · rw [h]
        exact unquoteStep_u 0x32 0x30 0x32 (hex (0x2028 % 0x10)) t (by decide) (by decide)
          (by decide) (by decide) (by decide)
      · rw [h]
        exact unquoteStep_u 0x32 0x30 0x32 (hex (0x2029 % 0x10)) t (by decide) (by decide)
          (by decide) (by decide) (by decide)
    · exact scanString_u 0x32 0x30 0x32 _ t (by decide) (by decide) (by decide)
        (hex_spec _ (by omega)).1
  · have hst : appendStringStep b rest
        = ((b :: rest).take (DecodeRune (b :: rest)).2, (DecodeRune (b :: rest)).2) := by
      simp only [appendStringStep, hnlt, if_false, DecodeRune_take, hne, hls]
    rw [hst]
    obtain ⟨k, hk⟩ : ∃ k, (DecodeRune (b :: rest)).2 = k + 1 := ⟨_, (Nat.sub_add_cancel
      (by omega : 1 ≤ (DecodeRune (b :: rest)).2)).symm⟩
    refine ⟨rfl, ⟨b, rest.take k, by rw [hk, List.take_succ_cons], fun t => ?_⟩, fun t => ?_⟩
    · rw [unquoteStep_high b _ hb]
      have e1 : b :: (List.take k rest ++ t)
          = (b :: rest).take (DecodeRune (b :: rest)).2 ++ t := by
        rw [hk, List.take_succ_cons, List.cons_append]
      rw [e1, m5 t, m3]
      have hlen : ((b :: rest).take (DecodeRune (b :: rest)).2).length
          = (DecodeRune (b :: rest)).2 := by
        rw [List.length_take]; omega
      rw [List.drop_append_of_le_length (by omega), List.drop_of_length_le (by omega)]
      simp
    · exact scanString_high _ t m4

theorem step_spec (b : UInt8) (rest : Bytes) (fv : Nat)
    (hv : Valid (fv + 1) (b :: rest) = true) :
    1 ≤ (appendStringStep b rest).2 ∧ (appendStringStep b rest).2 ≤ (b :: rest).length
      ∧ Valid fv ((b :: rest).drop (appendStringStep b rest).2) = true
      ∧ (∃ c' r', (appendStringStep b rest).1 = c' :: r'
          ∧ ∀ t, unquoteStep c' (r' ++ t)
              = some ((b :: rest).take (appendStringStep b rest).2, t))
      ∧ (∀ t, scanString StringState.inString ((appendStringStep b rest).1 ++ t)
            = scanString StringState.inString t) := by
  by_cases hb : b.toNat < 0x80
  · obtain ⟨a1, a2, a3⟩ := step_ascii b rest hb
    have hv' : Valid fv rest = true := by simpa [Valid, hb] using hv
    rw [a1]
    exact ⟨by omega, by simp, by simpa using hv', by simpa using a2, a3⟩
  · have hsz : (DecodeRune (b :: rest)).2 ≠ 1 := by
      intro h1
      simp [Valid, hb, h1] at hv
    have hv' : Valid fv ((b :: rest).drop (DecodeRune (b :: rest)).2) = true := by
      simpa [Valid, hb, hsz] using hv
    obtain ⟨a1, a2, a3⟩ := step_high b rest (by omega) hsz
    obtain ⟨m1, m2, _⟩ := DecodeRune_multi b rest (by omega) hsz
    rw [a1]
    exact ⟨by omega, m2, hv', a2, a3⟩

theorem unquoteLoop_nil (f : Nat) : unquoteLoop f [] = some [] := by
  cases f <;> simp [unquoteLoop]

theorem appendStringLoop_spec (f1 : Nat) :
    ∀ (s : Bytes) (fv : Nat), s.length ≤ f1 → s.length ≤ fv → Valid fv s = true →
      (∀ f2, (appendStringLoop f1 s).length ≤ f2 →
          unquoteLoop f2 (appendStringLoop f1 s) = some s)
        ∧ (∀ t, scanString StringState.inString (appendStringLoop f1 s ++ t)
              = scanString StringState.inString t) := by
  induction f1 with
  | zero =>
    intro s fv h1 _ _
    have hs : s = [] := List.length_eq_zero.mp (by omega)
    subst hs
    exact ⟨fun f2 _ => by simpa [appendStringLoop] using unquoteLoop_nil f2,
      fun t => by simp [appendStringLoop]⟩
  | succ f1 ih =>
    intro s fv h1 h2 hv
    cases s with
    | nil =>
      exact ⟨fun f2 _ => by simpa [appendStringLoop] using unquoteLoop_nil f2,
        fun t => by simp [appendStringLoop]⟩
    | cons b rest =>
      obtain ⟨fv', rfl⟩ : ∃ k, fv = k + 1 := ⟨fv - 1, by simp at h2; omega⟩
      obtain ⟨s1, s2, s3, ⟨c', r', s4, s5⟩, s6⟩ := step_spec b rest fv' hv
      have hlen : ((b :: rest).drop (appendStringStep b rest).2).length ≤ f1 := by
        rw [List.length_drop]; simp at h1 ⊢; omega
      have hlen2 : ((b :: rest).drop (appendStringStep b rest).2).length ≤ fv' := by
        rw [List.length_drop]; simp at h2 ⊢; omega
      obtain ⟨ihU, ihS⟩ := ih _ fv' hlen hlen2 s3
      have hL : appendStringLoop (f1 + 1) (b :: rest)
          = (appendStringStep b rest).1
            ++ appendStringLoop f1 ((b :: rest).drop (appendStringStep b rest).2) := by
        simp [appendStringLoop]
      rw [hL]
      constructor
      · intro f2 hf2
        rw [s4] at hf2 ⊢
        obtain ⟨f2', rfl⟩ : ∃ k, f2 = k + 1 := ⟨f2 - 1, by simp at hf2; omega⟩
        rw [List.cons_append]
        simp only [unquoteLoop, s5]
        rw [ihU f2' (by simp at hf2; omega)]
        simp [List.take_append_drop]
      · intro t
        rw [List.append_assoc, s6, ihS]

theorem DecodeRune_size_one (c : UInt8) (rest : Bytes) (hc : 0x80 ≤ c.toNat)
    (h : (DecodeRune (c :: rest)).2 = 1) : (DecodeRune (c :: rest)).1 = RuneError := by
  have hnlt : ¬ c.toNat < 0x80 := by omega
  revert h
  simp only [DecodeRune, hnlt, if_false]
  repeat' split
  all_goals simp

theorem DecodeRune_size_pos (c : UInt8) (rest : Bytes) : 1 ≤ (DecodeRune (c :: rest)).2 := by
  by_cases hc : c.toNat < 0x80
  · simp [DecodeRune, hc]
  · by_cases h1 : (DecodeRune (c :: rest)).2 = 1
    · omega
    · have := (DecodeRune_multi c rest (by omega) h1).1
      omega

theorem unquoteStep_length (c : UInt8) (rest w s' : Bytes)
    (h : unquoteStep c rest = some (w, s')) : s'.length ≤ rest.length := by
  have hpos := DecodeRune_size_pos c rest
  by_cases h5c : c.toNat = 0x5C
  · cases rest with
    | nil => simp [unquoteStep, h5c] at h
    | cons e rest1 =>
      simp only [unquoteStep, h5c, if_true] at h
      split_ifs at h
      all_goals first
        | (simp only [Option.some.injEq, Prod.mk.injEq] at h
           obtain ⟨_, rfl⟩ := h
           simp)
        | (split at h
           · simp at h
           · split_ifs at h
             all_goals
               simp only [Option.some.injEq, Prod.mk.injEq] at h
               obtain ⟨_, rfl⟩ := h
               simp
               try omega)
  · simp only [unquoteStep, h5c, if_false] at h
    split_ifs at h
    · simp only [Option.some.injEq, Prod.mk.injEq] at h
      obtain ⟨_, rfl⟩ := h
      simp
    · simp only [Option.some.injEq, Prod.mk.injEq] at h
      obtain ⟨_, rfl⟩ := h
      rw [List.length_drop]
      simp
      omega


theorem unquoteLoop_fuel (f1 : Nat) :
    ∀ (f2 : Nat) (x : Bytes), x.length ≤ f1 → x.length ≤ f2 →
      unquoteLoop f1 x = unquoteLoop f2 x := by
  induction f1 with
  | zero =>
    intro f2 x h1 _
    have hx : x = [] := List.length_eq_zero.mp (by omega)
    subst hx
    rw [unquoteLoop_nil, unquoteLoop_nil]
  | succ f1 ih =>
    intro f2 x h1 h2
    cases x with
    | nil => rw [unquoteLoop_nil, unquoteLoop_nil]
    | cons c rest =>
      obtain ⟨f2', rfl⟩ : ∃ k, f2 = k + 1 := ⟨f2 - 1, by simp at h2; omega⟩
      simp only [unquoteLoop]
      cases hstep : unquoteStep c rest with
      | none => rfl
      | some p =>
        obtain ⟨w, s'⟩ := p
        have hl := unquoteStep_length c rest w s' hstep
        simp only []
        rw [ih f2' s' (by simp at h1; omega) (by simp at h2; omega)]

theorem plainStep_spec (c : UInt8) (rest : Bytes) (n : Nat) (h : plainStep c rest = some n) :
    1 ≤ n ∧ n ≤ (c :: rest).length
      ∧ unquoteStep c rest = some ((c :: rest).take n, (c :: rest).drop n) := by
  unfold plainStep at h
  by_cases h1 : c.toNat = 0x5C ∨ c.toNat = 0x22 ∨ c.toNat < 0x20
  · simp [h1] at h
  · simp only [h1, if_false] at h
    by_cases h2 : c.toNat < 0x80
    · simp only [h2, if_true, Option.some.injEq] at h
      subst h
      refine ⟨by omega, by simp, ?_⟩
      simpa using unquoteStep_plain c rest (by omega) (by omega) (by omega) h2
    · simp only [h2, if_false] at h
      by_cases h3 : (DecodeRune (c :: rest)).1 = RuneError ∧ (DecodeRune (c :: rest)).2 = 1
      · simp [h3] at h
      · simp only [h3, if_false, Option.some.injEq] at h
        have hsz : (DecodeRune (c :: rest)).2 ≠ 1 := by
          intro hs
          exact h3 ⟨DecodeRune_size_one c rest (by omega) hs, hs⟩
        obtain ⟨m1, m2, m3, _⟩ := DecodeRune_multi c rest (by omega) hsz
        subst h
        refine ⟨by omega, m2, ?_⟩
        rw [unquoteStep_high c rest (by omega), m3]

theorem plainPrefix_spec (fp : Nat) :
    ∀ x : Bytes, x.length ≤ fp →
      plainPrefix fp x ≤ x.length
        ∧ ∀ f g, x.length ≤ f → x.length - plainPrefix fp x ≤ g →
            unquoteLoop f x
              = (unquoteLoop g (x.drop (plainPrefix fp x))).map
                  (x.take (plainPrefix fp x) ++ ·) := by
  induction fp with
  | zero =>
    intro x hx
    have hx : x = [] := List.length_eq_zero.mp (by omega)
    subst hx
    refine ⟨by simp [plainPrefix], fun f g _ _ => ?_⟩
    simp [plainPrefix, unquoteLoop_nil]
  | succ fp ih =>
    intro x hx
    cases x with
    | nil =>
      refine ⟨by simp [plainPrefix], fun f g _ _ => ?_⟩
      simp [plainPrefix, unquoteLoop_nil]
    | cons c rest =>
      cases hstep : plainStep c rest with
      | none =>
        have hr : plainPrefix (fp + 1) (c :: rest) = 0 := by simp [plainPrefix, hstep]
        rw [hr]
        refine ⟨by omega, fun f g hf hg => ?_⟩
        rw [unquoteLoop_fuel f g (c :: rest) hf (by omega)]
        simp
      | some n =>
        obtain ⟨n1, n2, n3⟩ := plainStep_spec c rest n hstep
        have hr : plainPrefix (fp + 1) (c :: rest)
            = n + plainPrefix fp ((c :: rest).drop n) := by simp [plainPrefix, hstep]
        have hdlen : ((c :: rest).drop n).length = (c :: rest).length - n := List.length_drop _ _
        have hdl : ((c :: rest).drop n).length ≤ fp := by
          rw [hdlen]; simp only [List.length_cons] at hx n2 ⊢; omega
        obtain ⟨i1, i2⟩ := ih _ hdl
        rw [hr]
        refine ⟨by omega, fun f g hf hg => ?_⟩
        obtain ⟨f', rfl⟩ : ∃ k, f = k + 1 := ⟨f - 1, by simp at hf; omega⟩
        have hf' : ((c :: rest).drop n).length ≤ f' := by
          rw [hdlen]; simp only [List.length_cons] at hf n2 ⊢; omega
        have hg' : ((c :: rest).drop n).length - plainPrefix fp ((c :: rest).drop n) ≤ g := by
          rw [hdlen]; omega
        simp only [unquoteLoop, n3]
        rw [i2 f' g hf' hg']
        rw [List.take_add, ← List.drop_drop]
        cases unquoteLoop g (List.drop (plainPrefix fp (List.drop n (c :: rest)))
          (List.drop n (c :: rest))) <;> simp

theorem unquoteBytes_quoted (body s : Bytes)
    (h : ∀ f, body.length ≤ f → unquoteLoop f body = some s) :
    unquoteBytes (0x22 :: (body ++ [0x22])) = some s := by
  obtain ⟨p1, p2⟩ := plainPrefix_spec body.length body (Nat.le_refl _)
  have hl : ¬ ((body ++ [0x22]).length < 1 ∨ (0x22 : UInt8).toNat ≠ 0x22
      ∨ (body ++ [0x22]).getLast?.map UInt8.toNat ≠ some 0x22) := by
    simp
  simp only [unquoteBytes, hl, if_false, List.dropLast_concat]
  have hall := h body.length (Nat.le_refl _)
  by_cases hr : plainPrefix body.length body = body.length
  · simp only [hr, if_true]
    have := p2 body.length 0 (Nat.le_refl _) (by omega)
    rw [hr, List.drop_length, unquoteLoop_nil, List.take_length] at this
    rw [hall] at this
    simpa using this.symm
  · simp only [hr, if_false]
    rw [← p2 body.length body.length (Nat.le_refl _) (by omega)]
    exact hall

/-- `json.Unmarshal` of the bytes `json.Marshal` wrote for a valid UTF-8 `string` gives the
`string` back. -/
theorem UnmarshalString_appendString (s : Bytes) (hs : ValidString s = true)
    (target : Bytes) : UnmarshalString (appendString s) target = (s, none) := by
  obtain ⟨hU, hS⟩ := appendStringLoop_spec s.length s s.length (Nat.le_refl _)
    (Nat.le_refl _) hs
  have htrim : trimSpace (appendString s) = appendString s := by
    apply trimSpace_eq
    · intro c hc
      simp [appendString] at hc
      subst hc
      decide
    · intro c hc
      have : (appendString s).getLast? = some 0x22 := by
        unfold appendString
        rw [← List.cons_append, List.getLast?_append]
        simp
      rw [this] at hc
      simp at hc
      subst hc
      decide
  have hnn : appendString s ≠ nullBytes := by
    intro h
    simp [appendString, nullBytes] at h
  have hscan : scanString StringState.inString (appendStringLoop s.length s ++ [0x22])
      = true := by
    rw [hS]
    decide
  have hq := unquoteBytes_quoted (appendStringLoop s.length s) s hU
  unfold UnmarshalString
  simp only [htrim, hnn, if_false]
  unfold appendString at hq ⊢
  have h22 : (0x22 : UInt8).toNat = 0x22 := by decide
  simp only [h22, hscan, and_self, if_true, hq]

/-- `json.Unmarshal` of the bytes `json.Marshal` wrote for a `bool` gives the `bool` back. -/
theorem UnmarshalBool_MarshalBool (v target : Bool) :
    ∃ b, MarshalBool v = Except.ok b ∧ UnmarshalBool b target = (v, none) := by
  cases v <;> cases target <;> exact ⟨_, rfl, by decide⟩

end json

namespace json
open optional (Bytes nullBytes)

/-! ## Lemmas on host records -/

theorem skipSpace_cons (c : UInt8) (t : Bytes) (h : isSpace c = false) :
    skipSpace (c :: t) = c :: t := by
  simp [skipSpace, List.dropWhile, h]

theorem scanStringRest_plain (c : UInt8) (t : Bytes) (h1 : c.toNat ≠ 0x22)
    (h2 : c.toNat ≠ 0x5C) (h3 : 0x20 ≤ c.toNat) :
    scanStringRest StringState.inString (c :: t) = scanStringRest StringState.inString t := by
  have h4 : ¬ c.toNat < 0x20 := by omega
  simp [scanStringRest, stateStep, h1, h2, h4]

theorem scanStringRest_high (w t : Bytes) (h : ∀ x ∈ w, 0x80 ≤ x.toNat) :
    scanStringRest StringState.inString (w ++ t) = scanStringRest StringState.inString t := by
  induction w with
  | nil => rfl
  | cons c w ih =>
    have hc := h c (by simp)
    rw [List.cons_append, scanStringRest_plain c _ (by omega) (by omega) (by omega)]
    exact ih (fun x hx => h x (List.mem_cons_of_mem _ hx))

theorem scanStringRest_esc (e : UInt8) (t : Bytes)
    (h : e.toNat = 0x62 ∨ e.toNat = 0x66 ∨ e.toNat = 0x6E ∨ e.toNat = 0x72 ∨ e.toNat = 0x74
      ∨ e.toNat = 0x5C ∨ e.toNat = 0x2F ∨ e.toNat = 0x22) :
    scanStringRest StringState.inString (0x5C :: e :: t)
      = scanStringRest StringState.inString t := by
  simp [scanStringRest, stateStep, UInt8.size, h]

theorem scanStringRest_u (h1 h2 h3 h4 : UInt8) (t : Bytes) (x1 : isHex h1 = true)
    (x2 : isHex h2 = true) (x3 : isHex h3 = true) (x4 : isHex h4 = true) :
    scanStringRest StringState.inString (0x5C :: 0x75 :: h1 :: h2 :: h3 :: h4 :: t)
      = scanStringRest StringState.inString t := by
  simp [scanStringRest, stateStep, UInt8.size, x1, x2, x3, x4]

theorem scanStringRest_quote (t : Bytes) :
    scanStringRest StringState.inString (0x22 :: t) = some t := by
  simp [scanStringRest, stateStep, UInt8.size]

theorem scanStringRest_escapeByte (b : UInt8) (t : Bytes) (hb : b.toNat < 0x80) :
    scanStringRest StringState.inString (escapeByte b ++ t)
      = scanStringRest StringState.inString t := by
  unfold escapeByte
  split_ifs with c1 c2 c3 c4 c5 c6
  · exact scanStringRest_esc b t (by omega)
  · exact scanStringRest_esc 0x62 t (by decide)
  · exact scanStringRest_esc 0x66 t (by decide)
  · exact scanStringRest_esc 0x6E t (by decide)
  · exact scanStringRest_esc 0x72 t (by decide)
  · exact scanStringRest_esc 0x74 t (by decide)
  · exact scanStringRest_u 0x30 0x30 _ _ t (by decide) (by decide)
      (hex_spec _ (by omega)).1 (hex_spec _ (by omega)).1

theorem scanStringRest_step (b : UInt8) (rest t : Bytes) :
    scanStringRest StringState.inString ((appendStringStep b rest).1 ++ t)
      = scanStringRest StringState.inString t := by
  unfold appendStringStep
  by_cases hb : b.toNat < 0x80
  · simp only [hb, if_true]
    by_cases hs : htmlSafeSet b.toNat = true
    · have hs' : 0x20 ≤ b.toNat ∧ b.toNat ≠ 0x22 ∧ b.toNat ≠ 0x5C := by
        simp [htmlSafeSet] at hs
        omega
      simp only [hs, if_true]
      exact scanStringRest_plain b t hs'.2.1 hs'.2.2 hs'.1
    · simp only [hs]
      exact scanStringRest_escapeByte b t hb
  · simp only [hb, if_false, DecodeRune_take]
    by_cases h1 : (DecodeRune (b :: rest)).1 = RuneError ∧ (DecodeRune (b :: rest)).2 = 1
    · simp only [h1, and_self, if_true]
      exact scanStringRest_u 0x66 0x66 0x66 0x64 t (by decide) (by decide) (by decide)
        (by decide)
    · simp only [h1, if_false]
      by_cases h2 : (DecodeRune (b :: rest)).1 = 0x2028 ∨ (DecodeRune (b :: rest)).1 = 0x2029
      · simp only [h2, if_true]
        exact scanStringRest_u 0x32 0x30 0x32 _ t (by decide) (by decide) (by decide)
          (hex_spec _ (by omega)).1
      · simp only [h2, if_false]
        have hsz : (DecodeRune (b :: rest)).2 ≠ 1 := fun hs =>
          h1 ⟨DecodeRune_size_one b rest (by omega) hs, hs⟩
        exact scanStringRest_high _ t (DecodeRune_multi b rest (by omega) hsz).2.2.2.1

theorem scanStringRest_loop (f : Nat) :
    ∀ (s t : Bytes), scanStringRest StringState.inString (appendStringLoop f s ++ t)
      = scanStringRest StringState.inString t := by
  induction f with
  | zero => intro s t; simp [appendStringLoop]
  | succ f ih =>
    intro s t
    cases s with
    | nil => simp [appendStringLoop]
    | cons b rest =>
      simp only [appendStringLoop, List.append_assoc]
      rw [scanStringRest_step, ih]

/-- The scanner accepts what `appendString` writes as one string literal. -/
theorem scanStringRest_appendString (s t : Bytes) :
    ∃ w, appendString s = 0x22 :: w
      ∧ scanStringRest StringState.inString (w ++ t) = some t := by
  refine ⟨appendStringLoop s.length s ++ [0x22], rfl, ?_⟩
  rw [List.append_assoc, scanStringRest_loop]
  exact scanStringRest_quote t

end json

namespace json
open optional (Bytes nullBytes)

theorem isSpace_quote_etc :
    isSpace 0x22 = false ∧ isSpace 0x3A = false ∧ isSpace 0x2C = false ∧ isSpace 0x7D = false
      ∧ isSpace 0x7B = false := by
  decide

theorem isSpace_delim (d : UInt8) (h : d.toNat = 0x2C ∨ d.toNat = 0x7D) :
    isSpace d = false := by
  apply isSpace_false_of_toNat
  omega

theorem isToken_null : IsToken nullBytes := by
  refine ⟨⟨0x6E, [0x75, 0x6C, 0x6C], rfl, by decide⟩, fun fuel depth d t _ => ?_⟩
  simp [nullBytes, scanValue, scanLiteralRest, UInt8.size]

theorem isToken_true : IsToken trueBytes := by
  refine ⟨⟨0x74, [0x72, 0x75, 0x65], rfl, by decide⟩, fun fuel depth d t _ => ?_⟩
  simp [trueBytes, scanValue, scanLiteralRest, UInt8.size]

theorem isToken_false : IsToken falseBytes := by
  refine ⟨⟨0x66, [0x61, 0x6C, 0x73, 0x65], rfl, by decide⟩, fun fuel depth d t _ => ?_⟩
  simp [falseBytes, scanValue, scanLiteralRest, UInt8.size]

theorem isToken_appendString (s : Bytes) : IsToken (appendString s) := by
  refine ⟨⟨0x22, _, rfl, by decide⟩, fun fuel depth d t _ => ?_⟩
  obtain ⟨w, hw, hscan⟩ := scanStringRest_appendString s (d :: t)
  rw [hw]
  simp only [List.cons_append, scanValue]
  simp [UInt8.size, hscan]

theorem isKey_appendString (s : Bytes) : IsKey (appendString s) := by
  refine ⟨appendStringLoop s.length s ++ [0x22], rfl, fun t => ?_⟩
  rw [List.append_assoc, scanStringRest_loop]
  exact scanStringRest_quote t

theorem numberStep_delim (s : NumberState) (d : UInt8) (h : d.toNat = 0x2C ∨ d.toNat = 0x7D) :
    numberStep s d = none := by
  have hd : isDigit d = false := by
    simp only [isDigit, Bool.and_eq_false_iff, decide_eq_false_iff_not]
    omega
  cases s <;> simp only [numberStep, hd] <;> rcases h with h | h <;> simp [h]

theorem scanNumberRest_end (s : NumberState) (hs : numberEnds s = true) (d : UInt8)
    (t : Bytes) (h : d.toNat = 0x2C ∨ d.toNat = 0x7D) :
    scanNumberRest s (d :: t) = some (d :: t) := by
  simp [scanNumberRest, numberStep_delim s d h, hs]

theorem scanNumberRest_digits (ds : Bytes) (d : UInt8) (t : Bytes)
    (hds : ∀ c ∈ ds, isDigit c = true) (h : d.toNat = 0x2C ∨ d.toNat = 0x7D) :
    scanNumberRest NumberState.one (ds ++ d :: t) = some (d :: t) := by
  induction ds with
  | nil => exact scanNumberRest_end NumberState.one rfl d t h
  | cons c cs ih =>
    have hc := hds c (by simp)
    simp only [List.cons_append, scanNumberRest, numberStep, hc, if_true]
    exact ih (fun x hx => hds x (List.mem_cons_of_mem _ hx))

theorem scanValue_decimal (u : Nat) (ds : Bytes) (hd : IsDecimalOf u ds) (fuel depth : Nat)
    (d : UInt8) (t : Bytes) (h : d.toNat = 0x2C ∨ d.toNat = 0x7D) :
    scanValue (fuel + 1) depth (ds ++ d :: t) = some (d :: t)
      ∧ scanNumberRest NumberState.neg (ds ++ d :: t) = some (d :: t) := by
  obtain ⟨hdig, hne, hhead, _⟩ := hd
  cases ds with
  | nil => exact absurd rfl hne
  | cons c cs =>
    have hc := isDigit_toNat c (hdig c (by simp))
    have hcs : ∀ x ∈ cs, isDigit x = true := fun x hx => hdig x (List.mem_cons_of_mem _ hx)
    have n1 : c.toNat ≠ 0x7B := by omega
    have n2 : c.toNat ≠ 0x5B := by omega
    have n3 : c.toNat ≠ 0x22 := by omega
    have n4 : c.toNat ≠ 0x2D := by omega
    by_cases h0 : c.toNat = 0x30
    · have hu : u = 0 := by
        by_contra hu
        exact (hhead c rfl).1 hu h0
      have hcs' : cs = [] := by
        have := (hhead c rfl).2 hu
        simpa using this
      subst hcs'
      have e0 := scanNumberRest_end NumberState.zero rfl d t h
      have e1 : scanNumberRest NumberState.neg (c :: d :: t) = some (d :: t) := by
        rw [scanNumberRest]
        simp only [numberStep, h0, if_true]
        exact e0
      simp [scanValue, n1, n2, n3, n4, h0, e0, e1]
    · have h19 : 0x31 ≤ c.toNat ∧ c.toNat ≤ 0x39 := by omega
      have e0 := scanNumberRest_digits cs d t hcs h
      have e1 : scanNumberRest NumberState.neg (c :: (cs ++ d :: t)) = some (d :: t) := by
        rw [scanNumberRest]
        simp only [numberStep, h0, if_false, h19, and_self, if_true]
        exact e0
      simp [scanValue, n1, n2, n3, n4, h0, h19, e0, e1]

theorem isToken_AppendInt (i : Int) : IsToken (AppendInt i) := by
  have hspec := formatBits_spec (i.natAbs + 1) i.natAbs (by omega)
  have hne := hspec.2.1
  by_cases hneg : i < 0
  · have hA : AppendInt i = 0x2d :: formatBits (i.natAbs + 1) i.natAbs [] := by
      simp [AppendInt, hneg]
    rw [hA]
    refine ⟨⟨0x2d, _, rfl, by decide⟩, fun fuel depth d t h => ?_⟩
    have := (scanValue_decimal _ _ hspec fuel depth d t h).2
    simp [scanValue, UInt8.size, this]
  · have hA : AppendInt i = formatBits (i.natAbs + 1) i.natAbs [] := by
      simp [AppendInt, hneg]
    rw [hA]
    constructor
    · cases hds : formatBits (i.natAbs + 1) i.natAbs [] with
      | nil => exact absurd hds hne
      | cons c cs =>
        refine ⟨c, cs, rfl, ?_⟩
        have hc := isDigit_toNat c (hspec.1 c (by rw [hds]; simp))
        exact isSpace_false_of_toNat c (by omega)
    · intro fuel depth d t h
      exact (scanValue_decimal _ _ hspec fuel depth d t h).1

end json

namespace json
open optional (Bytes nullBytes)

theorem take_sub_length (a b : Bytes) : (a ++ b).take ((a ++ b).length - b.length) = a := by
  apply List.take_left'
  simp

theorem memberKey_render (k v : Bytes) (t : Bytes) (hk : IsKey k) (hv : IsToken v) :
    memberKey (k ++ 0x3A :: (v ++ t)) = some (k, v ++ t) := by
  obtain ⟨w, rfl, hw⟩ := hk
  obtain ⟨⟨c, v', rfl, hc⟩, _⟩ := hv
  have h3a : isSpace 0x3A = false := by decide
  have hq : ¬ ((0x22 : UInt8).toNat ≠ 0x22) := by decide
  have hcol : ¬ ((0x3A : UInt8).toNat ≠ 0x3A) := by decide
  have key := take_sub_length (0x22 :: w) (0x3A :: (c :: v' ++ t))
  simp only [List.cons_append] at key ⊢
  simp only [memberKey, hq, if_false, hw, skipSpace_cons _ _ h3a, hcol, skipSpace_cons _ _ hc,
    key]

theorem valueEnd_brace (t : Bytes) : valueEnd 0x7D (0x7D :: t) = some (false, t) := by
  have h : isSpace 0x7D = false := by decide
  simp [valueEnd, skipSpace_cons _ _ h, UInt8.size]

theorem valueEnd_comma (t : Bytes) : valueEnd 0x7D (0x2C :: t) = some (true, t) := by
  have h : isSpace 0x2C = false := by decide
  simp [valueEnd, skipSpace_cons _ _ h, UInt8.size]

theorem renderMembers_cons_cons (m m' : Bytes × Bytes) (ms : List (Bytes × Bytes)) :
    renderMembers (m :: m' :: ms)
      = m.1 ++ 0x3A :: (m.2 ++ 0x2C :: renderMembers (m' :: ms)) := by
  simp [renderMembers]

theorem renderMembers_head (m : Bytes × Bytes) (ms : List (Bytes × Bytes)) (t : Bytes)
    (hk : IsKey m.1) :
    ∃ w, renderMembers (m :: ms) ++ t = 0x22 :: w := by
  obtain ⟨w, hw, _⟩ := hk
  cases ms with
  | nil => exact ⟨w ++ 0x3A :: (m.2 ++ t), by simp [renderMembers, hw]⟩
  | cons m' ms =>
    exact ⟨w ++ 0x3A :: (m.2 ++ 0x2C :: (renderMembers (m' :: ms) ++ t)),
      by simp [renderMembers, hw]⟩

/-- The scanner reads back the members that the struct encoder wrote. -/
theorem scanMembers_render (ms : List (Bytes × Bytes)) :
    ms ≠ [] → (∀ m ∈ ms, IsKey m.1 ∧ IsToken m.2) →
      ∀ (fuel depth : Nat) (t : Bytes), ms.length + 1 ≤ fuel →
        scanMembers fuel depth (renderMembers ms ++ 0x7D :: t) = some (ms, t) := by
  induction ms with
  | nil => intro h; exact absurd rfl h
  | cons m ms ih =>
    intro _ hall fuel depth t hfuel
    obtain ⟨hk, hv⟩ := hall m (by simp)
    obtain ⟨f1, rfl⟩ : ∃ k, fuel = k + 1 := ⟨fuel - 1, by simp at hfuel; omega⟩
    obtain ⟨f2, rfl⟩ : ∃ k, f1 = k + 1 := ⟨f1 - 1, by simp at hfuel; omega⟩
    cases ms with
    | nil =>
      have hr : renderMembers [m] ++ 0x7D :: t = m.1 ++ 0x3A :: (m.2 ++ 0x7D :: t) := by
        simp [renderMembers]
      rw [hr, scanMembers]
      simp only [memberKey_render _ _ _ hk hv]
      rw [hv.2 f2 depth 0x7D t (Or.inr (by decide))]
      simp only [valueEnd_brace]
      have key := take_sub_length m.2 (0x7D :: t)
      rw [key]
    | cons m' ms' =>
      have hr : renderMembers (m :: m' :: ms') ++ 0x7D :: t
          = m.1 ++ 0x3A :: (m.2 ++ 0x2C :: (renderMembers (m' :: ms') ++ 0x7D :: t)) := by
        rw [renderMembers_cons_cons]; simp
      obtain ⟨w, hw⟩ := renderMembers_head m' ms' (0x7D :: t) (hall m' (by simp)).1
      have hq : isSpace 0x22 = false := by decide
      have ih' := ih (by simp) (fun x hx => hall x (List.mem_cons_of_mem _ hx))
        (f2 + 1) depth t (by simp at hfuel ⊢; omega)
      have hsk : skipSpace (renderMembers (m' :: ms') ++ 0x7D :: t)
          = renderMembers (m' :: ms') ++ 0x7D :: t := by
        rw [hw]; exact skipSpace_cons _ _ hq
      have key := take_sub_length m.2 (0x2C :: (renderMembers (m' :: ms') ++ 0x7D :: t))
      rw [hr, scanMembers]
      simp only [memberKey_render _ _ _ hk hv]
      rw [hv.2 f2 depth 0x2C _ (Or.inl (by decide))]
      simp only [valueEnd_comma, hsk, ih', key]
      rfl

theorem length_le_renderMembers (ms : List (Bytes × Bytes)) :
    ms.length ≤ (renderMembers ms).length := by
  induction ms with
  | nil => simp
  | cons m ms ih =>
    cases ms with
    | nil =>
      simp only [renderMembers, List.length_append, List.length_cons, List.length_nil]
      omega
    | cons m' ms' =>
      rw [renderMembers_cons_cons]
      simp only [List.length_append, List.length_cons] at ih ⊢
      omega

/-- A document that the struct encoder wrote is valid, and its members are read back. -/
theorem objectMembers_render (ms : List (Bytes × Bytes))
    (hall : ∀ m ∈ ms, IsKey m.1 ∧ IsToken m.2) :
    checkValid (0x7B :: (renderMembers ms ++ [0x7D])) = true
      ∧ objectMembers (0x7B :: (renderMembers ms ++ [0x7D])) = some ms := by
  have hb : isSpace 0x7B = false := by decide
  cases ms with
  | nil => exact ⟨by decide, by decide⟩
  | cons m ms' =>
    obtain ⟨w, hw⟩ := renderMembers_head m ms' [0x7D] (hall m (by simp)).1
    have hq : isSpace 0x22 = false := by decide
    have hlen := length_le_renderMembers (m :: ms')
    have hfuel : (m :: ms').length + 1
        ≤ 2 * (0x7B :: (renderMembers (m :: ms') ++ [0x7D])).length + 1 := by
      simp only [List.length_cons, List.length_append, List.length_nil] at hlen ⊢
      omega
    have hscan := scanMembers_render (m :: ms') (by simp) hall _ (maxNestingDepth - 1) []
      hfuel
    have hve : valueEnd 0x7D (renderMembers (m :: ms') ++ [0x7D]) = none := by
      rw [hw]
      simp [valueEnd, skipSpace_cons _ _ hq, UInt8.size]
    have hsk : skipSpace (renderMembers (m :: ms') ++ [0x7D])
        = renderMembers (m :: ms') ++ [0x7D] := by
      rw [hw]; exact skipSpace_cons _ _ hq
    have hcv : checkValid (0x7B :: (renderMembers (m :: ms') ++ [0x7D])) = true := by
      unfold checkValid
      rw [skipSpace_cons _ _ hb]
      have h7b : (0x7B : UInt8).toNat = 0x7B := by decide
      have hd : ¬ (maxNestingDepth = 0) := by decide
      simp only [scanValue, h7b, if_true, hd, if_false, hve, hsk, hscan]
      simp
    refine ⟨hcv, ?_⟩
    unfold objectMembers
    rw [hcv, skipSpace_cons _ _ hb]
    have h7b : ¬ ((0x7B : UInt8).toNat ≠ 0x7B) := by decide
    simp only [if_true, h7b, if_false, hve, hsk]
    have hf2 : 2 * (0x7B :: (renderMembers (m :: ms') ++ [0x7D])).length + 2
        = (2 * (0x7B :: (renderMembers (m :: ms') ++ [0x7D])).length + 1) + 1 := rfl
    rw [hf2]
    have hscan2 := scanMembers_render (m :: ms') (by simp) hall
      (2 * (0x7B :: (renderMembers (m :: ms') ++ [0x7D])).length + 1 + 1)
      (maxNestingDepth - 1) [] (by omega)
    rw [hscan2]
    rfl

end json

namespace json
open optional (Bytes nullBytes ValueType Optional intType stringType boolType User userFields
  userName userAge userEmail userVerified)

/-- A wrapped field that is absent with the zero value, or present with a value that the
value type writes as a token other than `null` and reads back, is written by `MarshalJSON`
as a token that `UnmarshalJSON` reads back into a wrapper in any state. -/
theorem optional_member {T : Type} (vt : ValueType T Error) (o : Optional T)
    (h0 : o.IsSet = false → o.Value = vt.zero)
    (h1 : o.IsSet = true → ∃ A, vt.Marshal o.Value = Except.ok A ∧ IsToken A
      ∧ A ≠ nullBytes ∧ vt.Unmarshal A vt.zero = (o.Value, none)) :
    ∃ A, Optional.MarshalJSON vt o = Except.ok A ∧ IsToken A
      ∧ ∀ prior, Optional.UnmarshalJSON vt prior A = (o, none) := by
  obtain ⟨s, v⟩ := o
  cases s with
  | false =>
    have hv : v = vt.zero := h0 rfl
    subst hv
    exact ⟨nullBytes, by simp [Optional.MarshalJSON], isToken_null,
      fun prior => by simp [Optional.UnmarshalJSON]⟩
  | true =>
    obtain ⟨A, hA, htok, hnn, hdec⟩ := h1 rfl
    refine ⟨A, by simpa [Optional.MarshalJSON] using hA, htok, fun prior => ?_⟩
    obtain ⟨⟨c, w, hcw, _⟩, _⟩ := htok
    have hlen : A.length ≠ 0 := by rw [hcw]; simp
    simp only at hdec
    simp [Optional.UnmarshalJSON, hlen, hnn, hdec]

theorem AppendInt_ne_null (n : Int) : AppendInt n ≠ nullBytes := by
  have hspec := formatBits_spec (n.natAbs + 1) n.natAbs (by omega)
  intro h
  by_cases hneg : n < 0
  · simp [AppendInt, hneg, nullBytes] at h
  · have hA : AppendInt n = formatBits (n.natAbs + 1) n.natAbs [] := by
      simp [AppendInt, hneg]
    rw [hA] at h
    have hd := hspec.1 0x6e (by rw [h]; simp [nullBytes])
    revert hd
    decide

theorem optional_member_int (o : Optional Int) (h0 : o.IsSet = false → o.Value = 0)
    (h1 : o.IsSet = true → isGoInt o.Value) :
    ∃ A, Optional.MarshalJSON intType o = Except.ok A ∧ IsToken A
      ∧ ∀ prior, Optional.UnmarshalJSON intType prior A = (o, none) :=
  optional_member intType o h0 (fun hs =>
    ⟨AppendInt o.Value, rfl, isToken_AppendInt _, AppendInt_ne_null _,
      UnmarshalInt_AppendInt _ (h1 hs) _⟩)

theorem appendString_ne_null (s : Bytes) : appendString s ≠ nullBytes := by
  intro h
  simp [appendString, nullBytes] at h

theorem optional_member_string (o : Optional Bytes) (h0 : o.IsSet = false → o.Value = [])
    (h1 : o.IsSet = true → ValidString o.Value = true) :
    ∃ A, Optional.MarshalJSON stringType o = Except.ok A ∧ IsToken A
      ∧ ∀ prior, Optional.UnmarshalJSON stringType prior A = (o, none) :=
  optional_member stringType o h0 (fun hs =>
    ⟨appendString o.Value, rfl, isToken_appendString _, appendString_ne_null _,
      UnmarshalString_appendString _ (h1 hs) _⟩)

theorem optional_member_bool (o : Optional Bool) (h0 : o.IsSet = false → o.Value = false) :
    ∃ A, Optional.MarshalJSON boolType o = Except.ok A ∧ IsToken A
      ∧ ∀ prior, Optional.UnmarshalJSON boolType prior A = (o, none) :=
  optional_member boolType o h0 (fun _ => by
    cases o.Value
    · exact ⟨falseBytes, rfl, isToken_false, by decide, by decide⟩
    · exact ⟨trueBytes, rfl, isToken_true, by decide, by decide⟩)

end json

namespace optional

/-! ## The contract of `MarshalJSON`, `UnmarshalJSON` and `IsZero` -/

/-- C1: an absent wrapper, whatever its `Value` and whatever the encoder of `T` would do
with it, is marshalled to the four bytes `null` with a nil error. -/
theorem MarshalJSON_absent {T E : Type} (vt : ValueType T E) (o : Optional T)
    (h : o.IsSet = false) :
    Optional.MarshalJSON vt o = Except.ok nullBytes ∧ nullBytes.length = 4
      ∧ nullBytes = [0x6e, 0x75, 0x6c, 0x6c] := by
  refine ⟨?_, rfl, rfl⟩
  simp [Optional.MarshalJSON, h]

theorem MarshalJSON_absent_witness :
    (Optional.mk false (5 : Int)).IsSet = false
      ∧ Optional.MarshalJSON intType (Optional.mk false (5 : Int)) = Except.ok nullBytes
      ∧ nullBytes.length = 4 ∧ nullBytes = [0x6e, 0x75, 0x6c, 0x6c] :=
  ⟨rfl, MarshalJSON_absent intType (Optional.mk false (5 : Int)) rfl⟩

/-- C2: a present wrapper is marshalled to exactly the result of `json.Marshal` on its
`Value`, bytes or error; and for any wrapper, `MarshalJSON` returns an error `e` if and only
if the wrapper is present and the encoder of `T` returns `e` on its `Value`. -/
theorem MarshalJSON_present {T E : Type} (vt : ValueType T E) (o : Optional T)
    (h : o.IsSet = true) :
    Optional.MarshalJSON vt o = vt.Marshal o.Value
      ∧ ∀ (o' : Optional T) (e : E),
          Optional.MarshalJSON vt o' = Except.error e
            ↔ o'.IsSet = true ∧ vt.Marshal o'.Value = Except.error e := by
  constructor
  · simp [Optional.MarshalJSON, h]
  · intro o' e
    cases hs : o'.IsSet <;> simp [Optional.MarshalJSON, hs]

theorem MarshalJSON_present_witness :
    (Optional.mk true true).IsSet = true
      ∧ Optional.MarshalJSON boolType (Optional.mk true true) = Except.ok json.trueBytes :=
  ⟨rfl, (MarshalJSON_present boolType (Optional.mk true true) rfl).1⟩

/-- C3: on an empty input or on exactly `null`, `UnmarshalJSON` returns nil and leaves the
wrapper absent with the zero value of `T`, whatever the wrapper held before. -/
theorem UnmarshalJSON_null {T E : Type} (vt : ValueType T E) (o : Optional T) (b : Bytes)
    (h : b.length = 0 ∨ b = nullBytes) :
    Optional.UnmarshalJSON vt o b = ({ IsSet := false, Value := vt.zero }, none) := by
  rcases h with h | h <;> simp [Optional.UnmarshalJSON, h]

theorem UnmarshalJSON_null_witness :
    (nullBytes.length = 0 ∨ nullBytes = nullBytes)
      ∧ Optional.UnmarshalJSON intType (Optional.mk true (7 : Int)) nullBytes
          = ({ IsSet := false, Value := 0 }, none) :=
  ⟨Or.inr rfl, UnmarshalJSON_null intType (Optional.mk true (7 : Int)) nullBytes (Or.inr rfl)⟩

/-- C4: on an input that is neither empty nor `null` and that the decoder of `T`, run on a
fresh zero `T`, accepts with result `v`, `UnmarshalJSON` returns nil and leaves the wrapper
present with `Value = v`. -/
theorem UnmarshalJSON_accepted {T E : Type} (vt : ValueType T E) (o : Optional T) (b : Bytes)
    (v : T) (hlen : b.length ≠ 0) (hnull : b ≠ nullBytes)
    (hdec : vt.Unmarshal b vt.zero = (v, none)) :
    Optional.UnmarshalJSON vt o b = ({ IsSet := true, Value := v }, none) := by
  simp [Optional.UnmarshalJSON, hlen, hnull, hdec]

theorem UnmarshalJSON_accepted_witness :
    ([0x34, 0x32] : Bytes).length ≠ 0 ∧ ([0x34, 0x32] : Bytes) ≠ nullBytes
      ∧ intType.Unmarshal [0x34, 0x32] intType.zero = (42, none)
      ∧ Optional.UnmarshalJSON intType (Optional.mk false (0 : Int)) [0x34, 0x32]
          = ({ IsSet := true, Value := 42 }, none) :=
  ⟨by decide, by decide, by decide,
    UnmarshalJSON_accepted intType (Optional.mk false (0 : Int)) [0x34, 0x32] 42
      (by decide) (by decide) (by decide)⟩

/-- C5: on an input that is neither empty nor `null` and that the decoder of `T` rejects
with error `e`, `UnmarshalJSON` returns `e` and the wrapper is exactly as before the call,
in `IsSet` and in `Value`, whatever the decoder wrote to its target `v` before failing. -/
theorem UnmarshalJSON_rejected {T E : Type} (vt : ValueType T E) (o : Optional T) (b : Bytes)
    (v : T) (e : E) (hlen : b.length ≠ 0) (hnull : b ≠ nullBytes)
    (hdec : vt.Unmarshal b vt.zero = (v, some e)) :
    Optional.UnmarshalJSON vt o b = (o, some e) := by
  simp [Optional.UnmarshalJSON, hlen, hnull, hdec]

theorem UnmarshalJSON_rejected_witness :
    ([0x78] : Bytes).length ≠ 0 ∧ ([0x78] : Bytes) ≠ nullBytes
      ∧ intType.Unmarshal [0x78] intType.zero = (0, some json.Error.mk)
      ∧ Optional.UnmarshalJSON intType (Optional.mk true (7 : Int)) [0x78]
          = (Optional.mk true (7 : Int), some json.Error.mk) :=
  ⟨by decide, by decide, by decide,
    UnmarshalJSON_rejected intType (Optional.mk true (7 : Int)) [0x78] 0 json.Error.mk
      (by decide) (by decide) (by decide)⟩

/-- C8: what `MarshalJSON` returns for an absent wrapper is decoded, into a wrapper in any
state, without error and to the absent wrapper holding the zero value of `T`. -/
theorem roundtrip_absent {T E : Type} (vt : ValueType T E) (a o : Optional T)
    (h : a.IsSet = false) :
    ∃ b, Optional.MarshalJSON vt a = Except.ok b
      ∧ Optional.UnmarshalJSON vt o b = ({ IsSet := false, Value := vt.zero }, none) := by
  refine ⟨nullBytes, ?_, ?_⟩
  · simp [Optional.MarshalJSON, h]
  · simp [Optional.UnmarshalJSON]

theorem roundtrip_absent_witness :
    (Optional.mk false (3 : Int)).IsSet = false
      ∧ ∃ b, Optional.MarshalJSON intType (Optional.mk false (3 : Int)) = Except.ok b
        ∧ Optional.UnmarshalJSON intType (Optional.mk true (7 : Int)) b
            = ({ IsSet := false, Value := 0 }, none) :=
  ⟨rfl, roundtrip_absent intType (Optional.mk false (3 : Int)) (Optional.mk true (7 : Int)) rfl⟩

/-- C9: `IsZero` returns true exactly when `IsSet` is false, whatever `Value` is: a present
wrapper is never zero, also when it holds the zero value of `T`, an absent one always is,
and the zero-valued wrapper is absent. -/
theorem IsZero_iff_not_IsSet {T E : Type} (vt : ValueType T E) (o : Optional T) :
    (o.IsZero = true ↔ o.IsSet = false)
      ∧ (∀ v : T, (Optional.mk true v).IsZero = false ∧ (Optional.mk false v).IsZero = true)
      ∧ (Optional.mk true vt.zero).IsZero = false
      ∧ (Optional.zeroValue vt).IsZero = true := by
  refine ⟨?_, fun v => ⟨rfl, rfl⟩, rfl, rfl⟩
  cases hs : o.IsSet <;> simp [Optional.IsZero, hs]

/-- C10: the zero-value invariant (an absent wrapper holds the zero value of `T`) holds of
the zero-valued wrapper, is preserved by every `UnmarshalJSON` call on every input, and so
holds after any sequence of decode calls that starts from the zero-valued wrapper. -/
theorem ZeroValueInvariant_reachable {T E : Type} (vt : ValueType T E) :
    ZeroValueInvariant vt (Optional.zeroValue vt)
      ∧ (∀ (o : Optional T) (b : Bytes), ZeroValueInvariant vt o →
          ZeroValueInvariant vt (Optional.UnmarshalJSON vt o b).1)
      ∧ ∀ inputs : List Bytes,
          ZeroValueInvariant vt (decodeAll vt (Optional.zeroValue vt) inputs) := by
  have hstep : ∀ (o : Optional T) (b : Bytes), ZeroValueInvariant vt o →
      ZeroValueInvariant vt (Optional.UnmarshalJSON vt o b).1 := by
    intro o b ho
    unfold Optional.UnmarshalJSON
    by_cases hb : (b.length == 0 || b == nullBytes) = true
    · simp only [hb, if_true]
      intro _
      rfl
    · simp only [hb]
      rcases hdec : vt.Unmarshal b vt.zero with ⟨v, _ | e⟩
      · intro hset
        simp at hset
      · exact ho
  have hall : ∀ (inputs : List Bytes) (o : Optional T), ZeroValueInvariant vt o →
      ZeroValueInvariant vt (decodeAll vt o inputs) := by
    intro inputs
    induction inputs with
    | nil => intro o ho; exact ho
    | cons b bs ih =>
      intro o ho
      exact ih _ (hstep o b ho)
  exact ⟨fun _ => rfl, hstep, fun inputs => hall inputs _ (fun _ => rfl)⟩

/-- C6, amended: when the encoder of `T` returns for `v` bytes `b` that are neither empty
nor exactly `null`, and the decoder of `T`, run on a fresh zero `T`, gives `v` back for `b`,
then the present wrapper with `Value = v` is marshalled to `b` and unmarshalling `b` into a
wrapper in any state returns nil and leaves it present with `Value = v`. -/
theorem roundtrip_present {T E : Type} (vt : ValueType T E) (v : T) (b : Bytes)
    (o : Optional T) (hm : vt.Marshal v = Except.ok b) (hlen : b.length ≠ 0)
    (hnull : b ≠ nullBytes) (hdec : vt.Unmarshal b vt.zero = (v, none)) :
    Optional.MarshalJSON vt { IsSet := true, Value := v } = Except.ok b
      ∧ Optional.UnmarshalJSON vt o b = ({ IsSet := true, Value := v }, none) := by
  constructor
  · simp [Optional.MarshalJSON, hm]
  · simp [Optional.UnmarshalJSON, hlen, hnull, hdec]

theorem roundtrip_present_witness :
    intType.Marshal 42 = Except.ok [0x34, 0x32]
      ∧ ([0x34, 0x32] : Bytes).length ≠ 0 ∧ ([0x34, 0x32] : Bytes) ≠ nullBytes
      ∧ intType.Unmarshal [0x34, 0x32] intType.zero = (42, none)
      ∧ Optional.MarshalJSON intType { IsSet := true, Value := 42 } = Except.ok [0x34, 0x32]
      ∧ Optional.UnmarshalJSON intType (Optional.mk false (7 : Int)) [0x34, 0x32]
          = ({ IsSet := true, Value := 42 }, none) :=
  ⟨by decide, by decide, by decide, by decide,
    roundtrip_present intType 42 [0x34, 0x32] (Optional.mk false (7 : Int))
      (by decide) (by decide) (by decide) (by decide)⟩

/-- C6 as stated fails.  The present `Optional[Optional[int]]` whose value is an absent
`Optional[int]` is marshalled to `null`, and unmarshalling `null` gives an absent wrapper.
The present `Optional[string]` holding the one byte `0xFF` is marshalled to the literal
with the escape `\ufffd`, and unmarshalling it gives the present wrapper holding the three
bytes of U+FFFD, which is not the value that was marshalled. -/
theorem roundtrip_present_counterexample :
    (Optional.MarshalJSON optionalIntType
          { IsSet := true, Value := { IsSet := false, Value := 0 } }
        = Except.ok nullBytes
      ∧ Optional.UnmarshalJSON optionalIntType (Optional.zeroValue optionalIntType) nullBytes
        = ({ IsSet := false, Value := { IsSet := false, Value := 0 } }, none))
    ∧ (Optional.MarshalJSON stringType { IsSet := true, Value := [0xFF] }
        = Except.ok [0x22, 0x5C, 0x75, 0x66, 0x66, 0x66, 0x64, 0x22]
      ∧ Optional.UnmarshalJSON stringType (Optional.zeroValue stringType)
          [0x22, 0x5C, 0x75, 0x66, 0x66, 0x66, 0x64, 0x22]
        = ({ IsSet := true, Value := [0xEF, 0xBF, 0xBD] }, none)
      ∧ ([0xEF, 0xBF, 0xBD] : Bytes) ≠ [0xFF]) := by
  decide

/-- C7, amended: for every `string` that is valid UTF-8, every `int` and every `bool`, the
present wrapper holding the value is marshalled without error, and unmarshalling the bytes
into a fresh wrapper of the same type returns nil and leaves it present with the value
that was marshalled. -/
theorem roundtrip_scalars (s : Bytes) (n : Int) (b : Bool)
    (hs : json.ValidString s = true) (hn : json.isGoInt n) :
    (∃ d, Optional.MarshalJSON stringType { IsSet := true, Value := s } = Except.ok d
        ∧ Optional.UnmarshalJSON stringType (Optional.zeroValue stringType) d
            = ({ IsSet := true, Value := s }, none))
      ∧ (∃ d, Optional.MarshalJSON intType { IsSet := true, Value := n } = Except.ok d
        ∧ Optional.UnmarshalJSON intType (Optional.zeroValue intType) d
            = ({ IsSet := true, Value := n }, none))
      ∧ (∃ d, Optional.MarshalJSON boolType { IsSet := true, Value := b } = Except.ok d
        ∧ Optional.UnmarshalJSON boolType (Optional.zeroValue boolType) d
            = ({ IsSet := true, Value := b }, none)) := by
  refine ⟨⟨json.appendString s, rfl, ?_⟩, ⟨json.AppendInt n, rfl, ?_⟩, ?_⟩
  · have hlen : (json.appendString s).length ≠ 0 := by simp [json.appendString]
    have hnull : json.appendString s ≠ nullBytes := by
      intro h
      simp [json.appendString, nullBytes] at h
    have hdec : stringType.Unmarshal (json.appendString s) stringType.zero = (s, none) :=
      json.UnmarshalString_appendString s hs []
    simp [Optional.UnmarshalJSON, hlen, hnull, hdec]
  · have hdec : intType.Unmarshal (json.AppendInt n) intType.zero = (n, none) :=
      json.UnmarshalInt_AppendInt n hn 0
    have hne : json.AppendInt n ≠ [] := by
      intro h
      have h2 := hdec
      rw [h] at h2
      have h3 : intType.Unmarshal [] intType.zero = (0, some json.Error.mk) := by decide
      rw [h3] at h2
      simp at h2
    have hnull : json.AppendInt n ≠ nullBytes := by
      intro h
      have h2 := hdec
      rw [h] at h2
      have h3 : intType.Unmarshal nullBytes intType.zero = (0, none) := by decide
      rw [h3] at h2
      have hn0 : n = 0 := by
        have := congrArg Prod.fst h2
        simpa using this.symm
      rw [hn0] at h
      revert h
      decide
    have hlen : (json.AppendInt n).length ≠ 0 := by
      intro h
      exact hne (List.length_eq_zero.mp h)
    simp [Optional.UnmarshalJSON, hlen, hnull, hdec]
  · cases b
    · exact ⟨json.falseBytes, rfl, by decide⟩
    · exact ⟨json.trueBytes, rfl, by decide⟩

theorem roundtrip_scalars_witness :
    json.ValidString [0x74, 0x65, 0x73, 0x74] = true ∧ json.isGoInt 99
      ∧ (∃ d, Optional.MarshalJSON stringType { IsSet := true, Value := [0x74, 0x65, 0x73, 0x74] }
            = Except.ok d
        ∧ Optional.UnmarshalJSON stringType (Optional.zeroValue stringType) d
            = ({ IsSet := true, Value := [0x74, 0x65, 0x73, 0x74] }, none))
      ∧ (∃ d, Optional.MarshalJSON intType { IsSet := true, Value := 99 } = Except.ok d
        ∧ Optional.UnmarshalJSON intType (Optional.zeroValue intType) d
            = ({ IsSet := true, Value := 99 }, none))
      ∧ (∃ d, Optional.MarshalJSON boolType { IsSet := true, Value := false } = Except.ok d
        ∧ Optional.UnmarshalJSON boolType (Optional.zeroValue boolType) d
            = ({ IsSet := true, Value := false }, none)) :=
  ⟨by decide, by decide,
    roundtrip_scalars [0x74, 0x65, 0x73, 0x74] 99 false (by decide) (by decide)⟩

/-- C7 as stated fails for a `string` that is not valid UTF-8: the present `String` holding
the one byte `0xC3` (the first half of a two-byte rune) is marshalled to the literal with
the escape `\ufffd`, and unmarshalling it into a fresh `String` gives the present wrapper
holding the three bytes of U+FFFD, not the byte that was marshalled. -/
theorem roundtrip_scalars_counterexample :
    json.ValidString [0xC3] = false
      ∧ Optional.MarshalJSON stringType { IsSet := true, Value := [0xC3] }
        = Except.ok [0x22, 0x5C, 0x75, 0x66, 0x66, 0x66, 0x64, 0x22]
      ∧ Optional.UnmarshalJSON stringType (Optional.zeroValue stringType)
          [0x22, 0x5C, 0x75, 0x66, 0x66, 0x66, 0x64, 0x22]
        = ({ IsSet := true, Value := [0xEF, 0xBF, 0xBD] }, none)
      ∧ ([0xEF, 0xBF, 0xBD] : Bytes) ≠ [0xC3] := by
  decide

end optional

namespace optional

/-! ## Host records, independence of the prior state, and `null` -/

/-- C11, amended: when `UnmarshalJSON(b)` has returned nil, `IsSet` is true if and only if
`b` was neither empty nor exactly `null`; when it has returned an error, `b` was neither
empty nor `null` and the wrapper, `IsSet` included, is as it was before the call. -/
theorem IsSet_after_UnmarshalJSON {T E : Type} (vt : ValueType T E) (o : Optional T)
    (b : Bytes) :
    ((Optional.UnmarshalJSON vt o b).2 = none →
        ((Optional.UnmarshalJSON vt o b).1.IsSet = true ↔ (b.length ≠ 0 ∧ b ≠ nullBytes)))
      ∧ ∀ e, (Optional.UnmarshalJSON vt o b).2 = some e →
          (Optional.UnmarshalJSON vt o b).1 = o ∧ b.length ≠ 0 ∧ b ≠ nullBytes := by
  unfold Optional.UnmarshalJSON
  by_cases hb : (b.length == 0 || b == nullBytes) = true
  · simp only [hb, if_true]
    have hb' : b.length = 0 ∨ b = nullBytes := by simpa using hb
    constructor
    · intro _
      constructor
      · intro h; simp at h
      · intro h; rcases hb' with h0 | h0
        · exact absurd h0 h.1
        · exact absurd h0 h.2
    · intro e he; simp at he
  · simp only [hb]
    have hb' : b.length ≠ 0 ∧ b ≠ nullBytes := by
      simp only [Bool.or_eq_true, beq_iff_eq, not_or] at hb
      exact hb
    rcases hdec : vt.Unmarshal b vt.zero with ⟨v, _ | e⟩
    · exact ⟨fun _ => ⟨fun _ => hb', fun _ => rfl⟩, fun e he => by simp at he⟩
    · exact ⟨fun h => by simp at h, fun e' _ => ⟨rfl, hb'⟩⟩

/-- C11 as stated fails: on the token `true`, which is not `null`, the decoder of `int`
reports an error and a fresh `Int` is left with `IsSet = false`. -/
theorem IsSet_after_UnmarshalJSON_counterexample :
    json.trueBytes.length ≠ 0 ∧ json.trueBytes ≠ nullBytes
      ∧ Optional.UnmarshalJSON intType (Optional.zeroValue intType) json.trueBytes
        = ({ IsSet := false, Value := 0 }, some json.Error.mk) := by
  decide

/-- C12, amended: for every `User` whose `Name` is valid UTF-8, whose `Age`, `Email` and
`Verified` hold the zero value when absent, and whose `Email` is valid UTF-8 when present,
`json.Marshal` returns a document, and `json.Unmarshal` of that document into a fresh `User`
returns nil and gives the same `User` back: the same `Name` and, for `Age`, `Email` and
`Verified`, the same `IsSet` and the same `Value`. -/
theorem User_roundtrip (u : User) (hName : json.ValidString u.Name = true)
    (hAge : u.Age.IsSet = true → json.isGoInt u.Age.Value)
    (hAge0 : u.Age.IsSet = false → u.Age.Value = 0)
    (hEmail : u.Email.IsSet = true → json.ValidString u.Email.Value = true)
    (hEmail0 : u.Email.IsSet = false → u.Email.Value = [])
    (hVerified0 : u.Verified.IsSet = false → u.Verified.Value = false) :
    ∃ data, json.marshalStruct userFields u = Except.ok data
      ∧ json.unmarshalStruct userFields data User.zeroValue = (u, none) := by
  obtain ⟨A, hA, tA, dA⟩ := json.optional_member_int u.Age hAge0 hAge
  obtain ⟨E, hE, tE, dE⟩ := json.optional_member_string u.Email hEmail0 hEmail
  obtain ⟨V, hV, tV, dV⟩ := json.optional_member_bool u.Verified hVerified0
  have hms : json.encodeMembers userFields u = Except.ok
      [(json.appendString userName.name, json.appendString u.Name),
        (json.appendString userAge.name, A), (json.appendString userEmail.name, E),
        (json.appendString userVerified.name, V)] := by
    simp [json.encodeMembers, userFields, userName, userAge, userEmail, userVerified,
      json.stringField, json.optionalField, json.MarshalString, hA, hE, hV]
  have hall : ∀ m ∈ [(json.appendString userName.name, json.appendString u.Name),
        (json.appendString userAge.name, A), (json.appendString userEmail.name, E),
        (json.appendString userVerified.name, V)], json.IsKey m.1 ∧ json.IsToken m.2 := by
    intro m hm
    simp only [List.mem_cons, List.mem_singleton, List.mem_nil_iff, or_false] at hm
    rcases hm with rfl | rfl | rfl | rfl
    · exact ⟨json.isKey_appendString _, json.isToken_appendString _⟩
    · exact ⟨json.isKey_appendString _, tA⟩
    · exact ⟨json.isKey_appendString _, tE⟩
    · exact ⟨json.isKey_appendString _, tV⟩
  obtain ⟨hcv, hom⟩ := json.objectMembers_render _ hall
  refine ⟨0x7B :: (json.renderMembers
      [(json.appendString userName.name, json.appendString u.Name),
        (json.appendString userAge.name, A), (json.appendString userEmail.name, E),
        (json.appendString userVerified.name, V)] ++ [0x7D]),
    by simp [json.marshalStruct, hms], ?_⟩
  have k1 : json.unquoteBytes (json.appendString userName.name) = some userName.name := by
    decide
  have k2 : json.unquoteBytes (json.appendString userAge.name) = some userAge.name := by
    decide
  have k3 : json.unquoteBytes (json.appendString userEmail.name) = some userEmail.name := by
    decide
  have k4 : json.unquoteBytes (json.appendString userVerified.name)
      = some userVerified.name := by
    decide
  have f1 : json.findField userFields userName.name = some userName := rfl
  have f2 : json.findField userFields userAge.name = some userAge := rfl
  have f3 : json.findField userFields userEmail.name = some userEmail := rfl
  have f4 : json.findField userFields userVerified.name = some userVerified := rfl
  have d1 : ∀ r : User, userName.Unmarshal (json.appendString u.Name) r
      = ({ r with Name := u.Name }, none) := by
    intro r
    simp [userName, json.stringField, json.UnmarshalString_appendString u.Name hName]
  have d2 : ∀ r : User, userAge.Unmarshal A r = ({ r with Age := u.Age }, none) := by
    intro r
    simp [userAge, json.optionalField, dA]
  have d3 : ∀ r : User, userEmail.Unmarshal E r = ({ r with Email := u.Email }, none) := by
    intro r
    simp [userEmail, json.optionalField, dE]
  have d4 : ∀ r : User, userVerified.Unmarshal V r
      = ({ r with Verified := u.Verified }, none) := by
    intro r
    simp [userVerified, json.optionalField, dV]
  simp only [json.unmarshalStruct, hcv, if_true, hom, json.applyMembers, k1, k2, k3, k4,
    f1, f2, f3, f4, d1, d2, d3, d4]

theorem User_roundtrip_witness :
    ∃ data, json.marshalStruct userFields
        { Name := [0x4A, 0x61, 0x6E, 0x65], Age := { IsSet := true, Value := 30 },
          Email := { IsSet := true, Value := [0x6A, 0x61, 0x6E, 0x65, 0x40, 0x65, 0x78, 0x61, 0x6D, 0x70, 0x6C, 0x65, 0x2E, 0x63, 0x6F, 0x6D] },
          Verified := { IsSet := false, Value := false } } = Except.ok data
      ∧ json.unmarshalStruct userFields data User.zeroValue
        = ({ Name := [0x4A, 0x61, 0x6E, 0x65], Age := { IsSet := true, Value := 30 },
             Email := { IsSet := true, Value := [0x6A, 0x61, 0x6E, 0x65, 0x40, 0x65, 0x78, 0x61, 0x6D, 0x70, 0x6C, 0x65, 0x2E, 0x63, 0x6F, 0x6D] },
             Verified := { IsSet := false, Value := false } }, none) :=
  User_roundtrip
    { Name := [0x4A, 0x61, 0x6E, 0x65], Age := { IsSet := true, Value := 30 },
      Email := { IsSet := true, Value := [0x6A, 0x61, 0x6E, 0x65, 0x40, 0x65, 0x78, 0x61, 0x6D, 0x70, 0x6C, 0x65, 0x2E, 0x63, 0x6F, 0x6D] },
      Verified := { IsSet := false, Value := false } }
    (by decide) (by decide) (by decide) (by decide) (by decide) (by decide)

/-- C12 as stated fails for a `Name` that is not valid UTF-8: the `User` whose `Name` is
the one byte `0xFF` and whose optional fields are absent is marshalled to
`{"name":"\ufffd","age":null,"email":null,"verified":null}`, and unmarshalling that into a
fresh `User` gives the `Name` of the three bytes of U+FFFD. -/
theorem User_roundtrip_counterexample :
    json.marshalStruct userFields
        { Name := [0xFF], Age := { IsSet := false, Value := 0 },
          Email := { IsSet := false, Value := [] },
          Verified := { IsSet := false, Value := false } }
      = Except.ok [0x7B, 0x22, 0x6E, 0x61, 0x6D, 0x65, 0x22, 0x3A, 0x22, 0x5C, 0x75, 0x66, 0x66, 0x66, 0x64, 0x22, 0x2C, 0x22, 0x61, 0x67, 0x65, 0x22, 0x3A, 0x6E, 0x75, 0x6C, 0x6C, 0x2C, 0x22, 0x65, 0x6D, 0x61, 0x69, 0x6C, 0x22, 0x3A, 0x6E, 0x75, 0x6C, 0x6C, 0x2C, 0x22, 0x76, 0x65, 0x72, 0x69, 0x66, 0x69, 0x65, 0x64, 0x22, 0x3A, 0x6E, 0x75, 0x6C, 0x6C, 0x7D]
    ∧ json.unmarshalStruct userFields [0x7B, 0x22, 0x6E, 0x61, 0x6D, 0x65, 0x22, 0x3A, 0x22, 0x5C, 0x75, 0x66, 0x66, 0x66, 0x64, 0x22, 0x2C, 0x22, 0x61, 0x67, 0x65, 0x22, 0x3A, 0x6E, 0x75, 0x6C, 0x6C, 0x2C, 0x22, 0x65, 0x6D, 0x61, 0x69, 0x6C, 0x22, 0x3A, 0x6E, 0x75, 0x6C, 0x6C, 0x2C, 0x22, 0x76, 0x65, 0x72, 0x69, 0x66, 0x69, 0x65, 0x64, 0x22, 0x3A, 0x6E, 0x75, 0x6C, 0x6C, 0x7D] User.zeroValue
      = ({ Name := [0xEF, 0xBF, 0xBD], Age := { IsSet := false, Value := 0 },
           Email := { IsSet := false, Value := [] },
           Verified := { IsSet := false, Value := false } }, none)
    ∧ ([0xEF, 0xBF, 0xBD] : Bytes) ≠ [0xFF] := by
  decide

/-- C13: decoding `{"name":"Jane","age":30}` into the host record gives `name = "Jane"`,
`age` present with value 30 and `email` absent; encoding that record, with the keys of the
optional fields suppressed when `IsZero()` is true, gives an object whose keys are `name`
and `age`, without the key `email`. -/
theorem HostRecord_missing_key :
    json.unmarshalStruct hostRecordFields [0x7B, 0x22, 0x6E, 0x61, 0x6D, 0x65, 0x22, 0x3A, 0x22, 0x4A, 0x61, 0x6E, 0x65, 0x22, 0x2C, 0x22, 0x61, 0x67, 0x65, 0x22, 0x3A, 0x33, 0x30, 0x7D] HostRecord.zeroValue
      = ({ name := [0x4A, 0x61, 0x6E, 0x65], age := { IsSet := true, Value := 30 },
           email := { IsSet := false, Value := [] } }, none)
    ∧ json.marshalStruct hostRecordFields
        { name := [0x4A, 0x61, 0x6E, 0x65], age := { IsSet := true, Value := 30 },
          email := { IsSet := false, Value := [] } }
      = Except.ok [0x7B, 0x22, 0x6E, 0x61, 0x6D, 0x65, 0x22, 0x3A, 0x22, 0x4A, 0x61, 0x6E, 0x65, 0x22, 0x2C, 0x22, 0x61, 0x67, 0x65, 0x22, 0x3A, 0x33, 0x30, 0x7D]
    ∧ (json.objectMembers [0x7B, 0x22, 0x6E, 0x61, 0x6D, 0x65, 0x22, 0x3A, 0x22, 0x4A, 0x61, 0x6E, 0x65, 0x22, 0x2C, 0x22, 0x61, 0x67, 0x65, 0x22, 0x3A, 0x33, 0x30, 0x7D]).map (fun ms => ms.map (fun m => json.unquoteBytes m.1))
      = some [some [0x6E, 0x61, 0x6D, 0x65], some [0x61, 0x67, 0x65]]
    ∧ some [0x65, 0x6D, 0x61, 0x69, 0x6C]
        ∉ [some [0x6E, 0x61, 0x6D, 0x65], some ([0x61, 0x67, 0x65] : Bytes)] := by
  decide

/-- C14: the error `UnmarshalJSON` returns does not depend on the state of the wrapper
before the call, nor does the state after a call that returned nil, whose `Value` is what
the decoder of `T` made of a fresh zero `T`; and a second call on the same input changes
nothing.  So a present `Optional[map[string]string]` holding `{"a":"1"}` holds `{"b":"2"}`
after decoding `{"b":"2"}`, where `json.Unmarshal` into the map itself keeps the entry `a`. -/
theorem UnmarshalJSON_independent_of_prior {T E : Type} (vt : ValueType T E)
    (o1 o2 : Optional T) (b : Bytes) :
    (Optional.UnmarshalJSON vt o1 b).2 = (Optional.UnmarshalJSON vt o2 b).2
      ∧ ((Optional.UnmarshalJSON vt o1 b).2 = none →
          (Optional.UnmarshalJSON vt o1 b).1 = (Optional.UnmarshalJSON vt o2 b).1
            ∧ ((Optional.UnmarshalJSON vt o1 b).1.IsSet = true →
                (Optional.UnmarshalJSON vt o1 b).1.Value = (vt.Unmarshal b vt.zero).1))
      ∧ Optional.UnmarshalJSON vt (Optional.UnmarshalJSON vt o1 b).1 b
          = Optional.UnmarshalJSON vt o1 b
      ∧ Optional.UnmarshalJSON mapStringStringType
            { IsSet := true, Value := some [([0x61], [0x31])] } [0x7B, 0x22, 0x62, 0x22, 0x3A, 0x22, 0x32, 0x22, 0x7D]
          = ({ IsSet := true, Value := some [([0x62], [0x32])] }, none)
      ∧ mapStringStringType.Unmarshal [0x7B, 0x22, 0x62, 0x22, 0x3A, 0x22, 0x32, 0x22, 0x7D] (some [([0x61], [0x31])])
          = (some [([0x61], [0x31]), ([0x62], [0x32])], none) := by
  refine ⟨?_, ?_, ?_, by decide, by decide⟩
  · unfold Optional.UnmarshalJSON
    by_cases hb : (b.length == 0 || b == nullBytes) = true
    · simp only [hb, if_true]
    · simp only [hb]
      rcases hdec : vt.Unmarshal b vt.zero with ⟨v, _ | e⟩ <;> rfl
  · unfold Optional.UnmarshalJSON
    by_cases hb : (b.length == 0 || b == nullBytes) = true
    · simp [hb]
    · simp only [hb]
      rcases hdec : vt.Unmarshal b vt.zero with ⟨v, _ | e⟩
      · simp
      · simp
  · unfold Optional.UnmarshalJSON
    by_cases hb : (b.length == 0 || b == nullBytes) = true
    · simp [hb]
    · simp only [hb]
      rcases hdec : vt.Unmarshal b vt.zero with ⟨v, _ | e⟩
      · simp
      · simp

/-- C15: when the encoder of `T` returns for `v` bytes `b` (never empty, as `json.Marshal`
returns them) that the decoder of `T` accepts, the present wrapper holding `v` is marshalled
to `b`, and decoding `b` into a wrapper in any state yields `IsSet = true` if and only if
`b` is not exactly `null`.  The present `Any`
and the present `MapStringAny` whose `Value` is nil are marshalled to `null` with a nil
error, and `UnmarshalJSON` of `null` yields `IsSet = false`. -/
theorem presence_lost_on_null {T E D : Type} (vt : ValueType T E) (v : T) (b : Bytes)
    (o' : Optional T) (marshal : D → Except json.Error Bytes)
    (unmarshal : Bytes → Option D → Option D × Option json.Error)
    (oa : Optional (Option D)) (om : Optional (Option (List (Bytes × Option D))))
    (hm : vt.Marshal v = Except.ok b)
    (hlen : b.length ≠ 0) (hacc : (vt.Unmarshal b vt.zero).2 = none) :
    (Optional.MarshalJSON vt { IsSet := true, Value := v } = Except.ok b
        ∧ ((Optional.UnmarshalJSON vt o' b).1.IsSet = true ↔ b ≠ nullBytes))
      ∧ (Optional.MarshalJSON (anyType marshal unmarshal) { IsSet := true, Value := none }
            = Except.ok nullBytes
          ∧ (Optional.UnmarshalJSON (anyType marshal unmarshal) oa nullBytes).1.IsSet = false
          ∧ (Optional.UnmarshalJSON (anyType marshal unmarshal) oa nullBytes).2 = none)
      ∧ (Optional.MarshalJSON (mapStringAnyType marshal unmarshal)
              { IsSet := true, Value := none }
            = Except.ok nullBytes
          ∧ (Optional.UnmarshalJSON (mapStringAnyType marshal unmarshal) om nullBytes).1.IsSet
              = false
          ∧ (Optional.UnmarshalJSON (mapStringAnyType marshal unmarshal) om nullBytes).2
              = none) := by
  refine ⟨⟨by simp [Optional.MarshalJSON, hm], ?_⟩, ⟨rfl, rfl, rfl⟩, ⟨rfl, rfl, rfl⟩⟩
  unfold Optional.UnmarshalJSON
  by_cases hn : b = nullBytes
  · simp [hn]
  · rcases hdec : vt.Unmarshal b vt.zero with ⟨w, _ | e⟩
    · simp [hlen, hn, hdec]
    · rw [hdec] at hacc; simp at hacc

theorem presence_lost_on_null_witness :
    mapStringStringType.Marshal none = Except.ok nullBytes
      ∧ nullBytes.length ≠ 0 ∧ (mapStringStringType.Unmarshal nullBytes none).2 = none
      ∧ Optional.MarshalJSON mapStringStringType { IsSet := true, Value := none }
          = Except.ok nullBytes
      ∧ ((Optional.UnmarshalJSON mapStringStringType
            { IsSet := true, Value := none } nullBytes).1.IsSet = true ↔ nullBytes ≠ nullBytes) :=
  ⟨by decide, by decide, by decide,
    (@presence_lost_on_null _ _ Unit mapStringStringType none nullBytes
      { IsSet := true, Value := none } (fun _ => Except.ok nullBytes)
      (fun _ t => (t, none)) { IsSet := true, Value := none }
      { IsSet := true, Value := none } (by decide) (by decide) (by decide)).1⟩

/-- C16: `UnmarshalJSON` takes its absent branch on the empty input and on exactly the four
bytes `null`, and on no other input: on an input that is neither, the result is what the
decoder of `T` decides, and when that accepts the input and leaves its fresh target at the
zero value the wrapper ends present with the zero value.  So ` null` and `null ` on an `Int`,
which the decoder of `int` accepts leaving 0, return nil with `IsSet = true` and
`Value = 0`. -/
theorem UnmarshalJSON_null_byte_exact {T E : Type} (vt : ValueType T E) (o : Optional T)
    (b : Bytes) :
    ((b.length = 0 ∨ b = nullBytes) →
        Optional.UnmarshalJSON vt o b = ({ IsSet := false, Value := vt.zero }, none))
      ∧ (b.length ≠ 0 → b ≠ nullBytes →
          (∀ e, (vt.Unmarshal b vt.zero).2 = some e →
              Optional.UnmarshalJSON vt o b = (o, some e))
            ∧ ((vt.Unmarshal b vt.zero).2 = none →
              Optional.UnmarshalJSON vt o b
                = ({ IsSet := true, Value := (vt.Unmarshal b vt.zero).1 }, none))
            ∧ (vt.Unmarshal b vt.zero = (vt.zero, none) →
              Optional.UnmarshalJSON vt o b = ({ IsSet := true, Value := vt.zero }, none)))
      ∧ (intType.Unmarshal [0x20, 0x6E, 0x75, 0x6C, 0x6C] intType.zero = (0, none)
          ∧ Optional.UnmarshalJSON intType (Optional.zeroValue intType)
              [0x20, 0x6E, 0x75, 0x6C, 0x6C] = ({ IsSet := true, Value := 0 }, none))
      ∧ (intType.Unmarshal [0x6E, 0x75, 0x6C, 0x6C, 0x20] intType.zero = (0, none)
          ∧ Optional.UnmarshalJSON intType (Optional.zeroValue intType)
              [0x6E, 0x75, 0x6C, 0x6C, 0x20] = ({ IsSet := true, Value := 0 }, none)) := by
  refine ⟨?_, ?_, by decide, by decide⟩
  · intro h
    rcases h with h | h <;> simp [Optional.UnmarshalJSON, h]
  · intro hlen hnull
    refine ⟨?_, ?_, ?_⟩
    · intro e he
      rcases hdec : vt.Unmarshal b vt.zero with ⟨w, _ | e'⟩
      · rw [hdec] at he; simp at he
      · rw [hdec] at he
        simp only [Option.some.injEq] at he
        subst he
        simp [Optional.UnmarshalJSON, hlen, hnull, hdec]
    · intro he
      rcases hdec : vt.Unmarshal b vt.zero with ⟨w, _ | e'⟩
      · simp [Optional.UnmarshalJSON, hlen, hnull, hdec]
      · rw [hdec] at he; simp at he
    · intro hdec
      simp [Optional.UnmarshalJSON, hlen, hnull, hdec]

end optional
